import Mathlib

/-!
# MixerChannel (framework/audio/internal/worker/mixerchannel.cpp)

A shallow embedding of `mu::audio::MixerChannel`.

* `std::map<unsigned int, T>` is a key-ascending association list (`StdMap`);
  `m[k] = v` is `StdMap.insert`, `m.find(k)` is `StdMap.find`, `m.size()` is `StdMap.size`,
  and a range-`for` over the map walks `StdMap.entries` front to back.
* `float` values are rationals, `std::complex<float>` is a pair of rationals (`Cplx`).
  The only arithmetic on them is the balance coefficient of `updateBalanceLevelMaps`. It is
  embedded twice: `balanceAt` evaluates the expression over the rationals without rounding,
  `balanceAtF32` rounds every operation to binary32 (`roundF32`), which is what the code
  stores; the two agree for 2, 3 and 5 channels and differ for 4 channels.
* Shared pointers are object identifiers into a `World` that holds the audio sources and
  the audio processors; every call made on one of them is appended to `World.calls`.
* `IF_ASSERT_FAILED(cond) { body }` runs `body` when `cond` is false, after reporting the
  failed assertion. The accessors return, next to their value, whether they reported
  (`Checked`); the log output itself is not part of the state.
-/

namespace mu.audio

/-! ## std::map -/

/-- Ordered insertion into a key-ascending association list: the list after `m[k] = v`. -/
def insertEntry {α : Type} (k : Nat) (v : α) : List (Nat × α) → List (Nat × α)
  | [] => [(k, v)]
  | e :: rest =>
    if k < e.1 then (k, v) :: e :: rest
    else if k = e.1 then (k, v) :: rest
    else e :: insertEntry k v rest

/-- First value stored under key `k`, if any. -/
def findEntry {α : Type} (k : Nat) : List (Nat × α) → Option α
  | [] => none
  | e :: rest => if e.1 = k then some e.2 else findEntry k rest

/-- Keys strictly ascending from front to back. -/
def Ascending {α : Type} (l : List (Nat × α)) : Prop :=
  List.Pairwise (fun a b => a < b) (l.map Prod.fst)

instance {α : Type} (l : List (Nat × α)) : Decidable (Ascending l) := by
  unfold Ascending
  infer_instance

/-- The container `std::map<unsigned int, α>`: entries in strictly ascending key order. -/
structure StdMap (α : Type) where
  entries : List (Nat × α)
  ascending : Ascending entries

namespace StdMap

/-- The empty map. -/
def empty {α : Type} : StdMap α := ⟨[], by simp [Ascending]⟩

/-- The assignment `m[k] = v`: overwrites the entry of `k` or creates it. -/
def insert {α : Type} (m : StdMap α) (k : Nat) (v : α) : StdMap α :=
  ⟨insertEntry k v m.entries, by
    have h := m.ascending
    generalize m.entries = l at h
    suffices hs : Ascending (insertEntry k v l) ∧
        ∀ x ∈ (insertEntry k v l).map Prod.fst, x = k ∨ x ∈ l.map Prod.fst from hs.1
    induction l with
    | nil => simp [insertEntry, Ascending]
    | cons e rest ih =>
      unfold Ascending at h
      simp only [List.map_cons, List.pairwise_cons] at h
      obtain ⟨ihA, ihK⟩ := ih h.2
      unfold insertEntry
      split_ifs with h1 h2
      · refine ⟨?_, ?_⟩
        · unfold Ascending
          simp only [List.map_cons, List.pairwise_cons, List.mem_cons]
          refine ⟨?_, h.1, h.2⟩
          intro a ha
          rcases ha with ha | ha
          · exact ha ▸ h1
          · exact lt_trans h1 (h.1 a ha)
        · intro x hx
          simp only [List.map_cons, List.mem_cons] at hx ⊢
          tauto
      · refine ⟨?_, ?_⟩
        · unfold Ascending
          simp only [List.map_cons, List.pairwise_cons]
          exact ⟨fun a ha => h2 ▸ h.1 a ha, h.2⟩
        · intro x hx
          simp only [List.map_cons, List.mem_cons] at hx ⊢
          tauto
      · refine ⟨?_, ?_⟩
        · unfold Ascending
          simp only [List.map_cons, List.pairwise_cons]
          refine ⟨?_, ihA⟩
          intro a ha
          rcases ihK a ha with hk | hm
          · omega
          · exact h.1 a hm
        · intro x hx
          simp only [List.map_cons, List.mem_cons] at hx ⊢
          rcases hx with hx | hx
          · exact Or.inr (Or.inl hx)
          · rcases ihK x hx with hk | hm
            · exact Or.inl hk
            · exact Or.inr (Or.inr hm)⟩

/-- The lookup `m.find(k)`: `none` stands for `m.end()`. -/
def find {α : Type} (m : StdMap α) (k : Nat) : Option α := findEntry k m.entries

/-- The number of entries, `m.size()`. -/
def size {α : Type} (m : StdMap α) : Nat := m.entries.length

/-- The keys in iteration order. -/
def keys {α : Type} (m : StdMap α) : List Nat := m.entries.map Prod.fst

/-- The map without the entries that fail `keep`. -/
def filter {α : Type} (m : StdMap α) (keep : Nat × α → Bool) : StdMap α :=
  ⟨m.entries.filter keep,
    List.Pairwise.sublist (List.Sublist.map Prod.fst (List.filter_sublist m.entries))
      m.ascending⟩

end StdMap

/-! ## Values and collaborators -/

/-- The value type `std::complex<float>`, over the rationals. -/
structure Cplx where
  re : ℚ
  im : ℚ
  deriving DecidableEq

/-- The converting constructor `std::complex<float>(float)`. -/
def Cplx.ofReal (x : ℚ) : Cplx := ⟨x, 0⟩

/-! ## binary32 arithmetic -/

/-- Round to the nearest integer, ties to the even one. -/
def roundHalfEven (y : ℚ) : ℤ :=
  if y - ⌊y⌋ < 1 / 2 then ⌊y⌋
  else if 1 / 2 < y - ⌊y⌋ then ⌊y⌋ + 1
  else if ⌊y⌋ % 2 = 0 then ⌊y⌋ else ⌊y⌋ + 1

/-- The binary32 value of a real result: round to nearest, ties to even, on a 24-bit
significand (the unit in the last place of `x` is `2 ^ (⌊log₂ |x|⌋ - 23)`). The exponent is
not bounded, so this is IEEE 754 binary32 rounding for `2 ^ (-126) ≤ |x| < 2 ^ 128` and for
`0`, which covers every value that line 158 computes from 32-bit channel counts. -/
def roundF32 (x : ℚ) : ℚ :=
  if x = 0 then 0
  else (roundHalfEven (x / 2 ^ (Int.log 2 |x| - 23)) : ℚ) * 2 ^ (Int.log 2 |x| - 23)

/-- The rationals that are binary32 values (unbounded exponent): zero, and `m * 2 ^ k` with
a 24-bit significand `m`. -/
def IsF32 (r : ℚ) : Prop :=
  r = 0 ∨ ∃ m k : ℤ, 2 ^ 23 ≤ |m| ∧ |m| < 2 ^ 24 ∧ r = (m : ℚ) * 2 ^ k

/-- A sample buffer handed to `process`. -/
abbrev Buffer := List ℚ

/-- Modelled from the spec: the audio source capability `IAudioSource` (its declaration is
not part of the sources): the current channel count, the sample rate last received through
`setSampleRate`, and the in-place production of samples into a caller buffer. -/
structure IAudioSource where
  audioChannelsCount : Nat
  sampleRate : Nat
  process : Buffer → Nat → Buffer

/-- Modelled from the spec: the audio processor capability `IAudioProcessor` (its declaration
is not part of the sources): the declared stream count, the active query, the sample rate
last received through `setSampleRate`, and the in-place processing of a buffer. -/
structure IAudioProcessor where
  streamCount : Nat
  active : Bool
  sampleRate : Nat
  process : Buffer → Nat → Buffer

/-- A call made by the channel on one of its collaborators. -/
inductive Call where
  | sourceProcess (source : Nat) (sampleCount : Nat)
  | sourceSetSampleRate (source : Nat) (sampleRate : Nat)
  | processorProcess (proc : Nat) (sampleCount : Nat)
  | processorSetSampleRate (proc : Nat) (sampleRate : Nat)
  deriving DecidableEq

/-- The objects the channel points to, and the calls made on them so far. -/
structure World where
  sources : Nat → IAudioSource
  processors : Nat → IAudioProcessor
  calls : List Call

/-- Append one call to the record. -/
def World.record (w : World) (c : Call) : World := { w with calls := w.calls ++ [c] }

/-- The call `source->setSampleRate(rate)` on the source object `s`. -/
def World.sourceSetSampleRate (w : World) (s : Nat) (rate : Nat) : World :=
  { w with
    sources := Function.update w.sources s { w.sources s with sampleRate := rate }
    calls := w.calls ++ [Call.sourceSetSampleRate s rate] }

/-- The call `proc->setSampleRate(rate)` on the processor object `p`. -/
def World.processorSetSampleRate (w : World) (p : Nat) (rate : Nat) : World :=
  { w with
    processors := Function.update w.processors p { w.processors p with sampleRate := rate }
    calls := w.calls ++ [Call.processorSetSampleRate p rate] }

/-- The source object `s` now reports `n` channels (an event outside the channel). -/
def World.sourceChannelsChanged (w : World) (s : Nat) (n : Nat) : World :=
  { w with
    sources := Function.update w.sources s { w.sources s with audioChannelsCount := n } }

/-- The value returned by an accessor guarded by `IF_ASSERT_FAILED`, with the fact whether
the assertion failure was reported. -/
structure Checked (α : Type) where
  value : α
  assertFailed : Bool
  deriving DecidableEq

/-! ## MixerChannel -/

/-- The members of `MixerChannel`; `m_source` is `none` for a null pointer; `m_sampleRate`
is the member of the base class `AbstractAudioSource`. -/
structure MixerChannel where
  m_source : Option Nat
  m_level : StdMap ℚ
  m_balance : StdMap Cplx
  m_processorList : StdMap Nat
  m_active : Bool
  m_sampleRate : Nat

namespace MixerChannel

/-- The channel after `MixerChannel::MixerChannel()`: no source, empty maps, empty slot
table. The initial flag and sample rate come from declarations outside the sources. -/
def fresh (active : Bool) (sampleRate : Nat) : MixerChannel :=
  { m_source := none
    m_level := StdMap.empty
    m_balance := StdMap.empty
    m_processorList := StdMap.empty
    m_active := active
    m_sampleRate := sampleRate }

/-- `MixerChannel::audioChannelsCount`. -/
def audioChannelsCount (w : World) (ch : MixerChannel) : Checked Nat :=
  match ch.m_source with
  | none => ⟨0, true⟩
  | some s => ⟨(w.sources s).audioChannelsCount, false⟩

/-- The balance written for stream `c` of `n`, with the arithmetic taken over the rationals
(no rounding): `2.f * c / (n - 1) - 1.f` when `n > 1`, else `0.f`. The binary32 value the
code stores is `balanceAtF32`. -/
def balanceAt (n c : Nat) : Cplx :=
  if n > 1 then Cplx.ofReal (2 * (c : ℚ) / ((n - 1 : Nat) : ℚ) - 1) else Cplx.ofReal 0

/-- The loop of `updateBalanceLevelMaps` for a source reporting `n` channels. -/
def updateLoop (n : Nat) (ch : MixerChannel) : MixerChannel :=
  (List.range n).foldl
    (fun st c =>
      { st with
        m_level := st.m_level.insert c 1
        m_balance := st.m_balance.insert c (balanceAt n c) })
    ch

/-- `MixerChannel::updateBalanceLevelMaps`; `none` when `m_source` is null (the
dereference faults). -/
def updateBalanceLevelMaps (w : World) (ch : MixerChannel) : Option MixerChannel :=
  match ch.m_source with
  | none => none
  | some s => some (updateLoop (w.sources s).audioChannelsCount ch)

/-- `MixerChannel::checkStreams`. -/
def checkStreams (w : World) (ch : MixerChannel) : Option MixerChannel :=
  if (audioChannelsCount w ch).value ≠ ch.m_level.size then updateBalanceLevelMaps w ch
  else some ch

/-- `MixerChannel::active`. -/
def active (ch : MixerChannel) : Bool := ch.m_active

/-- `MixerChannel::setActive`. -/
def setActive (ch : MixerChannel) (active : Bool) : MixerChannel :=
  { ch with m_active := active }

/-- `MixerChannel::setSource`: the source pointer is stored, the maps are reconciled, the
channel subscribes to the channel-count notification of the source (its callback is
`onAudioChannelsCountChanged`), and the channel is activated. -/
def setSource (w : World) (ch : MixerChannel) (source : Nat) : Option MixerChannel :=
  (updateBalanceLevelMaps w { ch with m_source := some source }).map (fun st => st.setActive true)

/-- The callback subscribed by `setSource` to `audioChannelsCountChanged()`. -/
def onAudioChannelsCountChanged (w : World) (ch : MixerChannel) : Option MixerChannel :=
  updateBalanceLevelMaps w ch

/-- The expression `2.f * c / (n - 1) - 1.f` of line 158 in binary32: `c` and the unsigned
difference `n - 1` are converted to `float`, and the product, the quotient and the
difference are each rounded. -/
def balanceF32 (n c : Nat) : ℚ :=
  roundF32 (roundF32 (roundF32 (2 * roundF32 (c : ℚ)) / roundF32 ((n - 1 : Nat) : ℚ)) - 1)

/-- The balance stored for stream `c` of `n` in binary32:
`2.f * c / (n - 1) - 1.f` when `n > 1`, else `0.f`. -/
def balanceAtF32 (n c : Nat) : Cplx :=
  if n > 1 then Cplx.ofReal (balanceF32 n c) else Cplx.ofReal 0

/-- The body of the loop of `process` for the processor object `p`:
`if (p->active()) p->process(buffer, buffer, sampleCount)`. -/
def processSlot (sampleCount : Nat) (acc : World × Buffer) (p : Nat) : World × Buffer :=
  if (acc.1.processors p).active then
    (acc.1.record (Call.processorProcess p sampleCount),
      (acc.1.processors p).process acc.2 sampleCount)
  else acc

/-- `MixerChannel::process`: the new world (calls recorded) and the buffer on return. -/
def process (w : World) (ch : MixerChannel) (buffer : Buffer) (sampleCount : Nat) :
    World × Buffer :=
  match ch.m_source with
  | none => (w, buffer)
  | some s =>
    ch.m_processorList.entries.foldl (fun acc p => processSlot sampleCount acc p.2)
      (w.record (Call.sourceProcess s sampleCount), (w.sources s).process buffer sampleCount)

/-- Modelled from the spec: `AbstractAudioSource::setSampleRate` of the base class (not
part of the sources) stores the rate in `m_sampleRate`. -/
def storeSampleRate (ch : MixerChannel) (sampleRate : Nat) : MixerChannel :=
  { ch with m_sampleRate := sampleRate }

/-- `MixerChannel::setSampleRate`. -/
def setSampleRate (w : World) (ch : MixerChannel) (sampleRate : Nat) : World × MixerChannel :=
  match ch.m_source with
  | none => (w, ch.storeSampleRate sampleRate)
  | some s =>
    (ch.m_processorList.entries.foldl
        (fun acc p => acc.processorSetSampleRate p.2 sampleRate)
        (w.sourceSetSampleRate s sampleRate),
      ch.storeSampleRate sampleRate)

/-- `MixerChannel::level`. -/
def level (ch : MixerChannel) (streamId : Nat) : Checked ℚ :=
  match ch.m_level.find streamId with
  | none => ⟨0, true⟩
  | some v => ⟨v, false⟩

/-- `MixerChannel::setLevel(float)`: the broadcast form. -/
def setLevel (ch : MixerChannel) (level : ℚ) : MixerChannel :=
  { ch with
    m_level := ch.m_level.entries.foldl (fun m stream => m.insert stream.1 level) ch.m_level }

/-- `MixerChannel::setLevel(unsigned int, float)`: the indexed form. -/
def setLevelAt (ch : MixerChannel) (streamId : Nat) (level : ℚ) : MixerChannel :=
  { ch with m_level := ch.m_level.insert streamId level }

/-- `MixerChannel::balance`. -/
def balance (ch : MixerChannel) (streamId : Nat) : Checked Cplx :=
  match ch.m_balance.find streamId with
  | none => ⟨Cplx.ofReal 0, true⟩
  | some v => ⟨v, false⟩

/-- `MixerChannel::setBalance(std::complex<float>)`: the broadcast form. -/
def setBalance (ch : MixerChannel) (value : Cplx) : MixerChannel :=
  { ch with
    m_balance :=
      ch.m_balance.entries.foldl (fun m stream => m.insert stream.1 value) ch.m_balance }

/-- `MixerChannel::setBalance(unsigned int, std::complex<float>)`: the indexed form. -/
def setBalanceAt (ch : MixerChannel) (streamId : Nat) (value : Cplx) : MixerChannel :=
  { ch with m_balance := ch.m_balance.insert streamId value }

/-- `MixerChannel::processor`: `none` is the null pointer. -/
def processor (ch : MixerChannel) (number : Nat) : Checked (Option Nat) :=
  match ch.m_processorList.find number with
  | none => ⟨none, true⟩
  | some p => ⟨some p, false⟩

/-- `MixerChannel::setProcessor`. -/
def setProcessor (w : World) (ch : MixerChannel) (number : Nat) (proc : Nat) :
    World × MixerChannel :=
  if (w.processors proc).streamCount = (audioChannelsCount w ch).value then
    (w.processorSetSampleRate proc ch.m_sampleRate,
      { ch with m_processorList := ch.m_processorList.insert number proc })
  else (w, ch)

/-- The channel with every slot removed whose processor reports itself inactive. -/
def removeInactive (w : World) (ch : MixerChannel) : MixerChannel :=
  { ch with
    m_processorList := ch.m_processorList.filter (fun p => (w.processors p.2).active) }

end MixerChannel

/-! ## Sequences of operations -/

/-- The public operations of a channel, and the two events of a source: its channel count
changes, and the callback subscribed by `setSource` runs. -/
inductive Op where
  | setSource (source : Nat)
  | setLevel (level : ℚ)
  | setLevelAt (streamId : Nat) (level : ℚ)
  | setBalance (value : Cplx)
  | setBalanceAt (streamId : Nat) (value : Cplx)
  | setProcessor (number : Nat) (proc : Nat)
  | setSampleRate (sampleRate : Nat)
  | setActive (active : Bool)
  | process (buffer : Buffer) (sampleCount : Nat)
  | checkStreams
  | sourceChannelsChanged (source : Nat) (count : Nat)
  | channelsCountNotified

/-- One operation on a world and a channel; `none` when the operation faults. The callback
is only subscribed once a source is assigned. -/
def step (st : World × MixerChannel) : Op → Option (World × MixerChannel)
  | Op.setSource source => (MixerChannel.setSource st.1 st.2 source).map (fun ch => (st.1, ch))
  | Op.setLevel level => some (st.1, st.2.setLevel level)
  | Op.setLevelAt streamId level => some (st.1, st.2.setLevelAt streamId level)
  | Op.setBalance value => some (st.1, st.2.setBalance value)
  | Op.setBalanceAt streamId value => some (st.1, st.2.setBalanceAt streamId value)
  | Op.setProcessor number proc => some (MixerChannel.setProcessor st.1 st.2 number proc)
  | Op.setSampleRate sampleRate => some (MixerChannel.setSampleRate st.1 st.2 sampleRate)
  | Op.setActive active => some (st.1, st.2.setActive active)
  | Op.process buffer sampleCount => some ((MixerChannel.process st.1 st.2 buffer sampleCount).1, st.2)
  | Op.checkStreams => (MixerChannel.checkStreams st.1 st.2).map (fun ch => (st.1, ch))
  | Op.sourceChannelsChanged source count => some (st.1.sourceChannelsChanged source count, st.2)
  | Op.channelsCountNotified =>
    match st.2.m_source with
    | none => some st
    | some _ => (MixerChannel.onAudioChannelsCountChanged st.1 st.2).map (fun ch => (st.1, ch))

/-- Run a sequence of operations from a state; `none` when one of them faults. -/
def run (st : World × MixerChannel) : List Op → Option (World × MixerChannel)
  | [] => some st
  | op :: rest => (step st op).bind (fun st1 => run st1 rest)

/-- Whether the operation is one of the indexed setters `setLevel(i, v)` and
`setBalance(i, v)`. -/
def Op.isIndexedSetter : Op → Bool
  | Op.setLevelAt _ _ => true
  | Op.setBalanceAt _ _ => true
  | _ => false

/-- The discipline under which the maps stay exact: an indexed setter only addresses a
stream that already has an entry, and neither a newly assigned source nor a channel-count
change of the current source reports fewer channels than the maps have entries. -/
def admits (st : World × MixerChannel) : Op → Prop
  | Op.setSource source =>
    st.2.m_level.size ≤ (st.1.sources source).audioChannelsCount ∧
      st.2.m_balance.size ≤ (st.1.sources source).audioChannelsCount
  | Op.setLevelAt streamId _ => streamId ∈ st.2.m_level.keys
  | Op.setBalanceAt streamId _ => streamId ∈ st.2.m_balance.keys
  | Op.sourceChannelsChanged source count =>
    st.2.m_source = some source → st.2.m_level.size ≤ count ∧ st.2.m_balance.size ≤ count
  | _ => True

instance (st : World × MixerChannel) (op : Op) : Decidable (admits st op) := by
  cases op <;> unfold admits <;> infer_instance

/-- Every operation of the sequence is admitted in the state it is applied to. -/
def Admissible (st : World × MixerChannel) : List Op → Prop
  | [] => True
  | op :: rest =>
    admits st op ∧
      match step st op with
      | none => True
      | some st1 => Admissible st1 rest

instance decAdmissible (st : World × MixerChannel) :
    (ops : List Op) → Decidable (Admissible st ops)
  | [] => isTrue trivial
  | op :: rest => by
    unfold Admissible
    cases h : step st op with
    | none =>
      simp only []
      infer_instance
    | some st1 =>
      have := decAdmissible st1 rest
      simp only []
      infer_instance

/-- Both maps hold exactly the keys `0..K-1` for one `K` that does not exceed the channel
count of the assigned source. -/
def KeysInv (st : World × MixerChannel) : Prop :=
  ∃ K, st.2.m_level.keys = List.range K ∧ st.2.m_balance.keys = List.range K ∧
    ∀ s, st.2.m_source = some s → K ≤ (st.1.sources s).audioChannelsCount

/-! ## Concrete collaborators used to evaluate the operations -/

/-- A world for evaluation: source `s` reports `s` channels and emits `sampleCount` zero
samples; processor `p` declares `p / 100` streams, is active when `p` is odd, and appends
its own number to the buffer. -/
def demoWorld : World :=
  { sources := fun s => ⟨s, 0, fun _ n => List.replicate n 0⟩
    processors := fun p => ⟨p / 100, p % 2 == 1, 0, fun b _ => b ++ [(p : ℚ)]⟩
    calls := [] }

/-- A configured state for evaluation: the two-channel source, then processors installed at
the slots 3, 1 and 2, in this order. -/
def demoState : World × MixerChannel :=
  (run (demoWorld, MixerChannel.fresh false 44100)
    [Op.setSource 2, Op.setProcessor 3 231, Op.setProcessor 1 211,
      Op.setProcessor 2 221]).getD (demoWorld, MixerChannel.fresh false 44100)

/-- A disciplined sequence for evaluation: the two-channel source is assigned, gains are
set on existing streams, a processor is installed, the source grows to three channels
(no callback yet), the rate is set and audio is processed. -/
def demoOps : List Op :=
  [Op.setSource 2, Op.setLevelAt 1 3, Op.setBalance (Cplx.ofReal 0), Op.setProcessor 1 211,
    Op.sourceChannelsChanged 2 3, Op.setSampleRate 48000, Op.process [] 4, Op.setActive false]

/-- The state reached by `demoOps` from a fresh channel. -/
def demoRun : World × MixerChannel :=
  (run (demoWorld, MixerChannel.fresh false 0) demoOps).getD
    (demoWorld, MixerChannel.fresh false 0)

/-- An unconfigured state for evaluation: no source was assigned, and the processor 1
(no streams, active) was installed at slot 1. -/
def demoUnconfigured : World × MixerChannel :=
  (run (demoWorld, MixerChannel.fresh false 0) [Op.setProcessor 1 1]).getD
    (demoWorld, MixerChannel.fresh false 0)

/-- The channel of `demoState` with gains set by hand: every level 3, the balance of
stream 0 moved to 5. -/
def demoGains : MixerChannel :=
  (demoState.2.setLevel 3).setBalanceAt 0 (Cplx.ofReal 5)

/-- A sequence without indexed setters for evaluation: a source is assigned, gains are
broadcast, the source grows to three channels and the callback runs, `checkStreams` is
called, a processor is installed and audio is processed. -/
def demoPlainOps : List Op :=
  [Op.setSource 2, Op.setLevel 3, Op.setBalance (Cplx.ofReal 0), Op.sourceChannelsChanged 2 3,
    Op.channelsCountNotified, Op.checkStreams, Op.setProcessor 1 311, Op.setSampleRate 48000,
    Op.process [] 4, Op.setActive false]

/-! ## Facts about std::map -/

theorem findEntry_insertEntry_self {α : Type} (k : Nat) (v : α) (l : List (Nat × α)) :
    findEntry k (insertEntry k v l) = some v := by
  induction l with
  | nil => simp [insertEntry, findEntry]
  | cons e rest ih =>
    unfold insertEntry
    split_ifs with h1 h2
    · simp [findEntry]
    · simp [findEntry]
    · have : e.1 ≠ k := fun h => h2 h.symm
      simp [findEntry, this, ih]

theorem findEntry_insertEntry_ne {α : Type} (j k : Nat) (v : α) (l : List (Nat × α))
    (h : j ≠ k) : findEntry j (insertEntry k v l) = findEntry j l := by
  induction l with
  | nil => simp [insertEntry, findEntry, h.symm]
  | cons e rest ih =>
    unfold insertEntry
    split_ifs with h1 h2
    · simp [findEntry, h.symm]
    · have : e.1 ≠ j := fun he => h (he.symm.trans h2.symm)
      simp [findEntry, h.symm, this]
    · simp [findEntry, ih]

theorem mem_keys_insertEntry {α : Type} (x k : Nat) (v : α) (l : List (Nat × α)) :
    x ∈ (insertEntry k v l).map Prod.fst ↔ x = k ∨ x ∈ l.map Prod.fst := by
  induction l with
  | nil => simp [insertEntry]
  | cons e rest ih =>
    unfold insertEntry
    split_ifs with h1 h2
    · simp
    · simp [h2]
    · simp only [List.map_cons, List.mem_cons, ih]
      tauto

theorem findEntry_eq_none_iff {α : Type} (k : Nat) (l : List (Nat × α)) :
    findEntry k l = none ↔ k ∉ l.map Prod.fst := by
  induction l with
  | nil => simp [findEntry]
  | cons e rest ih =>
    unfold findEntry
    split_ifs with h
    · simp [h]
    · simp only [List.map_cons, List.mem_cons, ih]
      constructor
      · intro hn hk
        rcases hk with hk | hk
        · exact h hk.symm
        · exact hn hk
      · intro hn hk
        exact hn (Or.inr hk)

theorem entries_foldl_insert {α : Type} (f : Nat → α) (l : List Nat) (m : StdMap α) :
    (l.foldl (fun m c => m.insert c (f c)) m).entries =
      l.foldl (fun es c => insertEntry c (f c) es) m.entries := by
  induction l generalizing m with
  | nil => rfl
  | cons c rest ih =>
    rw [List.foldl_cons, ih (m.insert c (f c)), List.foldl_cons]
    rfl

theorem findEntry_foldl_insertEntry {α : Type} (f : Nat → α) (j : Nat) (l : List Nat)
    (es : List (Nat × α)) :
    findEntry j (l.foldl (fun es c => insertEntry c (f c) es) es) =
      if j ∈ l then some (f j) else findEntry j es := by
  induction l generalizing es with
  | nil => simp
  | cons c rest ih =>
    simp only [List.foldl_cons, ih, List.mem_cons]
    by_cases hj : j ∈ rest
    · simp [hj]
    · by_cases hc : j = c
      · subst hc
        simp [hj, findEntry_insertEntry_self]
      · simp [hj, hc, findEntry_insertEntry_ne j c (f c) es hc]

theorem mem_keys_foldl_insertEntry {α : Type} (f : Nat → α) (x : Nat) (l : List Nat)
    (es : List (Nat × α)) :
    x ∈ (l.foldl (fun es c => insertEntry c (f c) es) es).map Prod.fst ↔
      x ∈ l ∨ x ∈ es.map Prod.fst := by
  induction l generalizing es with
  | nil => simp
  | cons c rest ih =>
    simp only [List.foldl_cons, ih, List.mem_cons, mem_keys_insertEntry]
    tauto

theorem findEntry_some_mem {α : Type} (k : Nat) (v : α) (l : List (Nat × α))
    (h : findEntry k l = some v) : (k, v) ∈ l := by
  induction l with
  | nil => simp [findEntry] at h
  | cons d rest ih =>
    unfold findEntry at h
    split_ifs at h with hk
    · have hv : d.2 = v := Option.some.inj h
      have hd : d = (k, v) := Prod.ext hk hv
      simp [hd]
    · exact List.mem_cons_of_mem d (ih h)

theorem ascending_ext {α : Type} (l₁ l₂ : List (Nat × α)) (h₁ : Ascending l₁)
    (h₂ : Ascending l₂) (h : ∀ k, findEntry k l₁ = findEntry k l₂) : l₁ = l₂ := by
  induction l₁ generalizing l₂ with
  | nil =>
    cases l₂ with
    | nil => rfl
    | cons b r₂ =>
      have := h b.1
      simp [findEntry] at this
  | cons a r₁ ih =>
    cases l₂ with
    | nil =>
      have := h a.1
      simp [findEntry] at this
    | cons b r₂ =>
      have ha := h₁
      have hb := h₂
      unfold Ascending at ha hb
      simp only [List.map_cons, List.pairwise_cons] at ha hb
      have na : ∀ k, k ≤ a.1 → findEntry k r₁ = none := by
        intro k hk
        rw [findEntry_eq_none_iff]
        intro hm
        have := ha.1 k hm
        omega
      have nb : ∀ k, k ≤ b.1 → findEntry k r₂ = none := by
        intro k hk
        rw [findEntry_eq_none_iff]
        intro hm
        have := hb.1 k hm
        omega
      have hkey : a.1 = b.1 := by
        rcases Nat.lt_trichotomy a.1 b.1 with hlt | heq | hgt
        · have h1 := h a.1
          have hne : b.1 ≠ a.1 := by omega
          simp [findEntry, hne, nb a.1 (by omega)] at h1
        · exact heq
        · have h1 := h b.1
          have hne : a.1 ≠ b.1 := by omega
          simp [findEntry, hne, na b.1 (by omega)] at h1
      have hval : a.2 = b.2 := by
        have h1 := h a.1
        simp [findEntry, hkey] at h1
        exact h1
      have hab : a = b := Prod.ext hkey hval
      have htl : r₁ = r₂ := by
        apply ih r₂ ha.2 hb.2
        intro k
        by_cases hk : k = a.1
        · rw [hk, na a.1 (le_refl _), nb a.1 (by omega)]
        · have h1 := h k
          have hk1 : a.1 ≠ k := fun e => hk e.symm
          have hk2 : b.1 ≠ k := fun e => hk (hkey.trans e).symm
          simpa [findEntry, hk1, hk2] using h1
      rw [hab, htl]

namespace MixerChannel

theorem updateLoop_fields (n : Nat) (ch : MixerChannel) :
    (updateLoop n ch).m_source = ch.m_source ∧
      (updateLoop n ch).m_processorList = ch.m_processorList ∧
      (updateLoop n ch).m_active = ch.m_active ∧
      (updateLoop n ch).m_sampleRate = ch.m_sampleRate ∧
      (updateLoop n ch).m_level =
        (List.range n).foldl (fun m c => m.insert c (1 : ℚ)) ch.m_level ∧
      (updateLoop n ch).m_balance =
        (List.range n).foldl (fun m c => m.insert c (balanceAt n c)) ch.m_balance := by
  unfold updateLoop
  generalize List.range n = l
  induction l generalizing ch with
  | nil => simp
  | cons c rest ih =>
    simp only [List.foldl_cons]
    obtain ⟨h1, h2, h3, h4, h5, h6⟩ := ih
      { ch with
        m_level := ch.m_level.insert c 1
        m_balance := ch.m_balance.insert c (balanceAt n c) }
    exact ⟨h1, h2, h3, h4, h5, h6⟩

theorem updateLoop_level_entries (n : Nat) (ch : MixerChannel) :
    (updateLoop n ch).m_level.entries =
      (List.range n).foldl (fun es c => insertEntry c (1 : ℚ) es) ch.m_level.entries := by
  rw [(updateLoop_fields n ch).2.2.2.2.1]
  exact entries_foldl_insert (fun _ => (1 : ℚ)) (List.range n) ch.m_level

theorem updateLoop_balance_entries (n : Nat) (ch : MixerChannel) :
    (updateLoop n ch).m_balance.entries =
      (List.range n).foldl (fun es c => insertEntry c (balanceAt n c) es)
        ch.m_balance.entries := by
  rw [(updateLoop_fields n ch).2.2.2.2.2]
  exact entries_foldl_insert (balanceAt n) (List.range n) ch.m_balance

/-! ## Reconciliation on a freshly constructed channel -/

/-- C2 (the code at the failing input): a channel reconciled for a two-channel source still
has its level and balance entries for index 1 after the source shrinks to one channel and
reconciliation runs, be it through the subscribed callback, through `checkStreams` or
through `setSource`: the loop overwrites the entries `0..M-1` and erases nothing. -/
theorem updateBalanceLevelMaps_shrink_keeps_stale :
    ∃ ch ch1 ch2 ch3, setSource demoWorld (fresh false 0) 2 = some ch ∧
      ch.m_level.keys = [0, 1] ∧ ch.m_balance.keys = [0, 1] ∧
      (audioChannelsCount (demoWorld.sourceChannelsChanged 2 1) ch).value = 1 ∧
      onAudioChannelsCountChanged (demoWorld.sourceChannelsChanged 2 1) ch = some ch1 ∧
      ch1.m_level.keys = [0, 1] ∧ ch1.m_balance.keys = [0, 1] ∧
      (ch1.level 1).assertFailed = false ∧ (ch1.balance 1).assertFailed = false ∧
      checkStreams (demoWorld.sourceChannelsChanged 2 1) ch1 = some ch2 ∧
      ch2.m_level.keys = [0, 1] ∧ ch2.m_balance.keys = [0, 1] ∧
      (demoWorld.sources 1).audioChannelsCount = 1 ∧
      setSource demoWorld ch 1 = some ch3 ∧
      ch3.m_level.keys = [0, 1] ∧ ch3.m_balance.keys = [0, 1] :=
  ⟨_, _, _, _, rfl, rfl, rfl, rfl, rfl, rfl, rfl, rfl, rfl, rfl, rfl, rfl, rfl, rfl, rfl, rfl⟩

/-! ## The processing chain -/

/-- The example of C3 evaluated: installed at the slots 3, 1, 2 (in this order), the
processors are run as slot 1, slot 2, slot 3, after the source. -/
theorem process_demo_order :
    demoState.2.m_processorList.entries = [(1, 211), (2, 221), (3, 231)] ∧
      (process demoState.1 demoState.2 [] 0).2 = [211, 221, 231] ∧
      (process demoState.1 demoState.2 [] 0).1.calls =
        demoState.1.calls ++
          [Call.sourceProcess 2 0, Call.processorProcess 211 0, Call.processorProcess 221 0,
            Call.processorProcess 231 0] := by
  decide

theorem processSlot_processors (n : Nat) (acc : World × Buffer) (p : Nat) :
    (processSlot n acc p).1.processors = acc.1.processors := by
  unfold processSlot
  split_ifs <;> rfl

theorem processSlot_of_inactive (n : Nat) (acc : World × Buffer) (p : Nat)
    (h : (acc.1.processors p).active = false) : processSlot n acc p = acc := by
  simp [processSlot, h]

theorem foldl_processSlot_filter (w : World) (n : Nat) (l : List (Nat × Nat))
    (acc : World × Buffer) (hacc : acc.1.processors = w.processors) :
    l.foldl (fun acc p => processSlot n acc p.2) acc =
      (l.filter (fun p => (w.processors p.2).active)).foldl
        (fun acc p => processSlot n acc p.2) acc := by
  induction l generalizing acc with
  | nil => rfl
  | cons d rest ih =>
    by_cases hd : (w.processors d.2).active = true
    · have hnext : (processSlot n acc d.2).1.processors = w.processors := by
        rw [processSlot_processors, hacc]
      simp only [List.foldl_cons, List.filter_cons, hd, if_true]
      exact ih (processSlot n acc d.2) hnext
    · have hd2 : (acc.1.processors d.2).active = false := by
        rw [hacc]
        simpa using hd
      simp only [List.foldl_cons, List.filter_cons, hd, processSlot_of_inactive n acc d.2 hd2]
      exact ih acc hacc

theorem foldl_processSlot_calls (n : Nat) (l : List (Nat × Nat)) (acc : World × Buffer) :
    ∃ added, (l.foldl (fun acc p => processSlot n acc p.2) acc).1.calls = acc.1.calls ++ added ∧
      ∀ c, c ∈ added →
        ∃ p, c = Call.processorProcess p n ∧ (acc.1.processors p).active = true := by
  induction l generalizing acc with
  | nil => exact ⟨[], by simp, by simp⟩
  | cons d rest ih =>
    obtain ⟨added, hcalls, hadded⟩ := ih (processSlot n acc d.2)
    simp only [List.foldl_cons]
    by_cases hd : (acc.1.processors d.2).active = true
    · refine ⟨Call.processorProcess d.2 n :: added, ?_, ?_⟩
      · rw [hcalls]
        simp [processSlot, hd, World.record]
      · intro c hc
        rcases List.mem_cons.1 hc with hc | hc
        · exact ⟨d.2, hc, hd⟩
        · obtain ⟨p, hp, hact⟩ := hadded c hc
          rw [processSlot_processors] at hact
          exact ⟨p, hp, hact⟩
    · have hd2 : (acc.1.processors d.2).active = false := by simpa using hd
      have hskip := processSlot_of_inactive n acc d.2 hd2
      rw [hskip] at hcalls hadded
      rw [hskip]
      exact ⟨added, hcalls, hadded⟩

/-- C4: `process` gives the same world and buffer as `process` on the channel with every
inactive slot removed from the slot table, and the calls it adds to the record contain no
`process` call on a processor that reports `active() = false`. -/
theorem process_skips_inactive (w : World) (ch : MixerChannel) (buffer : Buffer) (n : Nat) :
    process w ch buffer n = process w (removeInactive w ch) buffer n ∧
      ∃ added, (process w ch buffer n).1.calls = w.calls ++ added ∧
        ∀ p m, (w.processors p).active = false → Call.processorProcess p m ∉ added := by
  refine ⟨?_, ?_⟩
  · unfold process removeInactive
    cases hs : ch.m_source with
    | none => rfl
    | some s =>
      simp only [StdMap.filter]
      exact foldl_processSlot_filter w n ch.m_processorList.entries _ rfl
  · unfold process
    cases hs : ch.m_source with
    | none => exact ⟨[], by simp, by simp⟩
    | some s =>
      obtain ⟨added, hcalls, hadded⟩ := foldl_processSlot_calls n ch.m_processorList.entries
        (w.record (Call.sourceProcess s n), (w.sources s).process buffer n)
      refine ⟨Call.sourceProcess s n :: added, ?_, ?_⟩
      · rw [hcalls]
        simp [World.record]
      · intro p m hp hmem
        rcases List.mem_cons.1 hmem with hc | hc
        · cases hc
        · obtain ⟨q, hq, hact⟩ := hadded _ hc
          cases hq
          simp [World.record, hp] at hact

/-- An inactive processor between two active ones is skipped: slot 2 holds the inactive
processor 222 and the buffer only receives the numbers of the processors 211 and 231. -/
theorem process_demo_inactive :
    ∃ st, step demoState (Op.setProcessor 2 222) = some st ∧
      st.2.m_processorList.entries = [(1, 211), (2, 222), (3, 231)] ∧
      (process st.1 st.2 [] 0).2 = [211, 231] := by
  refine ⟨_, rfl, ?_, ?_⟩ <;> decide

/-! ## Installing processors -/

/-- C5: when the stream count of the processor differs from `audioChannelsCount()`,
`setProcessor` returns the channel and the world as they were: the slot table keeps every
occupant (the one of that slot included), the lookup `processor` answers as before, the
rejected processor keeps the sample rate it had, and no call is recorded. -/
theorem setProcessor_stream_count_gate (w : World) (ch : MixerChannel) (number : Nat)
    (proc : Nat) (h : (w.processors proc).streamCount ≠ (audioChannelsCount w ch).value) :
    setProcessor w ch number proc = (w, ch) ∧
      (setProcessor w ch number proc).2.m_processorList = ch.m_processorList ∧
      (∀ k, (setProcessor w ch number proc).2.processor k = ch.processor k) ∧
      ((setProcessor w ch number proc).1.processors proc).sampleRate =
        (w.processors proc).sampleRate ∧
      (setProcessor w ch number proc).1.calls = w.calls := by
  have hgate : setProcessor w ch number proc = (w, ch) := by
    unfold setProcessor
    rw [if_neg h]
  rw [hgate]
  exact ⟨rfl, rfl, fun _ => rfl, rfl, rfl⟩

/-- Witness of C5: the mono processor 111 is offered for the occupied slot 1 of a channel
whose source has two channels. -/
theorem setProcessor_stream_count_gate_witness :
    (demoState.1.processors 111).streamCount ≠ (audioChannelsCount demoState.1 demoState.2).value ∧
      (setProcessor demoState.1 demoState.2 1 111 = (demoState.1, demoState.2) ∧
        (setProcessor demoState.1 demoState.2 1 111).2.m_processorList =
          demoState.2.m_processorList ∧
        (∀ k, (setProcessor demoState.1 demoState.2 1 111).2.processor k =
          demoState.2.processor k) ∧
        ((setProcessor demoState.1 demoState.2 1 111).1.processors 111).sampleRate =
          (demoState.1.processors 111).sampleRate ∧
        (setProcessor demoState.1 demoState.2 1 111).1.calls = demoState.1.calls) :=
  ⟨by decide, setProcessor_stream_count_gate demoState.1 demoState.2 1 111 (by decide)⟩

/-- The gate evaluated: the slot keeps its occupant and the rejected processor keeps the
sample rate 0 it had, although the channel stores 44100. -/
theorem setProcessor_demo_rejected :
    ((setProcessor demoState.1 demoState.2 1 111).2.processor 1).value = some 211 ∧
      ((setProcessor demoState.1 demoState.2 1 111).1.processors 111).sampleRate = 0 ∧
      demoState.2.m_sampleRate = 44100 := by
  decide

/-! ## Sample rate -/

theorem foldl_processorSetSampleRate (r : Nat) (l : List (Nat × Nat)) (w : World) :
    (l.foldl (fun acc p => acc.processorSetSampleRate p.2 r) w).sources = w.sources ∧
      (l.foldl (fun acc p => acc.processorSetSampleRate p.2 r) w).calls =
        w.calls ++ l.map (fun e => Call.processorSetSampleRate e.2 r) ∧
      ∀ p, (l.foldl (fun acc p => acc.processorSetSampleRate p.2 r) w).processors p =
        if p ∈ l.map Prod.snd then { w.processors p with sampleRate := r }
        else w.processors p := by
  induction l generalizing w with
  | nil => simp
  | cons d rest ih =>
    obtain ⟨hs, hc, hp⟩ := ih (w.processorSetSampleRate d.2 r)
    simp only [List.foldl_cons]
    refine ⟨?_, ?_, ?_⟩
    · rw [hs]
      rfl
    · rw [hc]
      simp [World.processorSetSampleRate]
    · intro p
      rw [hp p]
      by_cases hd : p = d.2
      · subst hd
        by_cases hr : d.2 ∈ rest.map Prod.snd
        · simp [hr, World.processorSetSampleRate]
        · simp [hr, World.processorSetSampleRate]
      · by_cases hr : p ∈ rest.map Prod.snd
        · simp [hr, hd, World.processorSetSampleRate, Function.update_noteq hd]
        · simp [hr, hd, World.processorSetSampleRate, Function.update_noteq hd]

/-- C6: on a configured channel `setSampleRate(r)` stores `r`, hands `r` to the source and
to the processor of every slot, active or not, one call each in slot order; the channel is
otherwise unchanged (slot table, maps, active flag, source), and so are the channel count of
the source and the stream count and active state of every processor. -/
theorem setSampleRate_fan_out (w : World) (ch : MixerChannel) (source : Nat) (r : Nat)
    (h : ch.m_source = some source) :
    (setSampleRate w ch r).2 = { ch with m_sampleRate := r } ∧
      (setSampleRate w ch r).2.m_sampleRate = r ∧
      ((setSampleRate w ch r).1.sources source).sampleRate = r ∧
      (∀ k p, ch.m_processorList.find k = some p →
        ((setSampleRate w ch r).1.processors p).sampleRate = r) ∧
      (setSampleRate w ch r).1.calls =
        w.calls ++ Call.sourceSetSampleRate source r ::
          ch.m_processorList.entries.map (fun e => Call.processorSetSampleRate e.2 r) ∧
      ((setSampleRate w ch r).1.sources source).audioChannelsCount =
        (w.sources source).audioChannelsCount ∧
      (∀ p, ((setSampleRate w ch r).1.processors p).active = (w.processors p).active ∧
        ((setSampleRate w ch r).1.processors p).streamCount = (w.processors p).streamCount) := by
  obtain ⟨hs, hc, hp⟩ := foldl_processorSetSampleRate r ch.m_processorList.entries
    (w.sourceSetSampleRate source r)
  have hw : (setSampleRate w ch r).1 =
      ch.m_processorList.entries.foldl (fun acc p => acc.processorSetSampleRate p.2 r)
        (w.sourceSetSampleRate source r) := by
    unfold setSampleRate
    rw [h]
  have hch : (setSampleRate w ch r).2 = { ch with m_sampleRate := r } := by
    unfold setSampleRate
    split <;> rfl
  refine ⟨hch, by rw [hch], ?_, ?_, ?_, ?_, ?_⟩
  · rw [hw, hs]
    simp [World.sourceSetSampleRate]
  · intro k p hf
    have hmem : p ∈ ch.m_processorList.entries.map Prod.snd :=
      List.mem_map_of_mem Prod.snd (findEntry_some_mem k p _ hf)
    rw [hw, hp p, if_pos hmem]
  · rw [hw, hc]
    simp [World.sourceSetSampleRate]
  · rw [hw, hs]
    simp [World.sourceSetSampleRate]
  · intro p
    rw [hw, hp p]
    split_ifs <;> exact ⟨rfl, rfl⟩

/-- Witness of C6: a source and three processors (one of them made inactive) receive
48000. -/
theorem setSampleRate_fan_out_witness :
    demoState.2.m_source = some 2 ∧
      ((setSampleRate demoState.1 demoState.2 48000).2 =
          { demoState.2 with m_sampleRate := 48000 } ∧
        (setSampleRate demoState.1 demoState.2 48000).2.m_sampleRate = 48000 ∧
        ((setSampleRate demoState.1 demoState.2 48000).1.sources 2).sampleRate = 48000 ∧
        (∀ k p, demoState.2.m_processorList.find k = some p →
          ((setSampleRate demoState.1 demoState.2 48000).1.processors p).sampleRate = 48000) ∧
        (setSampleRate demoState.1 demoState.2 48000).1.calls =
          demoState.1.calls ++ Call.sourceSetSampleRate 2 48000 ::
            demoState.2.m_processorList.entries.map
              (fun e => Call.processorSetSampleRate e.2 48000) ∧
        ((setSampleRate demoState.1 demoState.2 48000).1.sources 2).audioChannelsCount =
          (demoState.1.sources 2).audioChannelsCount ∧
        (∀ p, ((setSampleRate demoState.1 demoState.2 48000).1.processors p).active =
            (demoState.1.processors p).active ∧
          ((setSampleRate demoState.1 demoState.2 48000).1.processors p).streamCount =
            (demoState.1.processors p).streamCount)) :=
  ⟨rfl, setSampleRate_fan_out demoState.1 demoState.2 2 48000 rfl⟩

/-- The fan-out evaluated with an inactive processor at slot 2: the source and the three
processors hold 48000 afterwards. -/
theorem setSampleRate_demo :
    ∃ st, step demoState (Op.setProcessor 2 222) = some st ∧
      (st.1.processors 222).active = false ∧
      ((setSampleRate st.1 st.2 48000).1.sources 2).sampleRate = 48000 ∧
      ((setSampleRate st.1 st.2 48000).1.processors 211).sampleRate = 48000 ∧
      ((setSampleRate st.1 st.2 48000).1.processors 222).sampleRate = 48000 ∧
      ((setSampleRate st.1 st.2 48000).1.processors 231).sampleRate = 48000 := by
  refine ⟨_, rfl, ?_, ?_, ?_, ?_, ?_⟩ <;> decide

/-! ## Gains -/

theorem findEntry_map_const {α : Type} (v : α) (k : Nat) (l : List (Nat × α)) :
    findEntry k (l.map (fun e => (e.1, v))) = if k ∈ l.map Prod.fst then some v else none := by
  induction l with
  | nil => simp [findEntry]
  | cons d rest ih =>
    rw [List.map_cons, findEntry, ih]
    by_cases hd : d.1 = k
    · simp [hd]
    · have hd2 : ¬ k = d.1 := fun e => hd e.symm
      simp only [hd, if_false, List.map_cons, List.mem_cons, hd2, false_or]

theorem foldl_insert_own_keys {α : Type} (v : α) (m : StdMap α) :
    (m.entries.foldl (fun acc stream => acc.insert stream.1 v) m).entries =
      m.entries.map (fun e => (e.1, v)) := by
  have hfold : m.entries.foldl (fun acc stream => acc.insert stream.1 v) m =
      (m.entries.map Prod.fst).foldl (fun acc c => acc.insert c v) m := by
    rw [List.foldl_map]
  apply ascending_ext
  · exact (m.entries.foldl (fun acc stream => acc.insert stream.1 v) m).ascending
  · have hk : (m.entries.map (fun e => (e.1, v))).map Prod.fst = m.entries.map Prod.fst := by
      simp [Function.comp_def]
    unfold Ascending
    rw [hk]
    exact m.ascending
  · intro k
    rw [hfold, entries_foldl_insert (fun _ => v), findEntry_foldl_insertEntry (fun _ => v),
      findEntry_map_const]
    by_cases hk : k ∈ m.entries.map Prod.fst
    · simp [hk]
    · simp only [hk, if_false]
      exact (findEntry_eq_none_iff k m.entries).2 hk

/-- C7: the broadcast `setLevel(v)` rewrites the level map entry by entry to the value `v`
under the same keys, so the key set is unchanged and every existing stream reads `v`; the
balance map, the slot table, the active flag, the source and the sample rate are untouched.
The broadcast `setBalance(b)` does the same to the balance map and leaves the level map
and the other members untouched. -/
theorem setLevel_setBalance_broadcast (ch : MixerChannel) (v : ℚ) (b : Cplx) :
    ((ch.setLevel v).m_level.entries = ch.m_level.entries.map (fun e => (e.1, v)) ∧
      (ch.setLevel v).m_level.keys = ch.m_level.keys ∧
      (∀ i, i ∈ ch.m_level.keys → (ch.setLevel v).level i = ⟨v, false⟩) ∧
      (ch.setLevel v).m_balance = ch.m_balance ∧
      (ch.setLevel v).m_processorList = ch.m_processorList ∧
      (ch.setLevel v).m_active = ch.m_active ∧
      (ch.setLevel v).m_source = ch.m_source ∧
      (ch.setLevel v).m_sampleRate = ch.m_sampleRate) ∧
    ((ch.setBalance b).m_balance.entries = ch.m_balance.entries.map (fun e => (e.1, b)) ∧
      (ch.setBalance b).m_balance.keys = ch.m_balance.keys ∧
      (∀ i, i ∈ ch.m_balance.keys → (ch.setBalance b).balance i = ⟨b, false⟩) ∧
      (ch.setBalance b).m_level = ch.m_level ∧
      (ch.setBalance b).m_processorList = ch.m_processorList ∧
      (ch.setBalance b).m_active = ch.m_active ∧
      (ch.setBalance b).m_source = ch.m_source ∧
      (ch.setBalance b).m_sampleRate = ch.m_sampleRate) := by
  have hl : (ch.setLevel v).m_level.entries = ch.m_level.entries.map (fun e => (e.1, v)) :=
    foldl_insert_own_keys v ch.m_level
  have hb : (ch.setBalance b).m_balance.entries = ch.m_balance.entries.map (fun e => (e.1, b)) :=
    foldl_insert_own_keys b ch.m_balance
  refine ⟨⟨hl, ?_, ?_, rfl, rfl, rfl, rfl, rfl⟩, ⟨hb, ?_, ?_, rfl, rfl, rfl, rfl, rfl⟩⟩
  · simp [StdMap.keys, hl, Function.comp_def]
  · intro i hi
    have hf : (ch.setLevel v).m_level.find i = some v := by
      unfold StdMap.find
      rw [hl, findEntry_map_const]
      exact if_pos hi
    simp [level, hf]
  · simp [StdMap.keys, hb, Function.comp_def]
  · intro i hi
    have hf : (ch.setBalance b).m_balance.find i = some b := by
      unfold StdMap.find
      rw [hb, findEntry_map_const]
      exact if_pos hi
    simp [balance, hf]

/-- The broadcast evaluated on the two-channel channel: after `setLevel(1/2)` the keys are
still 0 and 1, and both streams hold 1/2. -/
theorem setLevel_demo :
    (demoState.2.setLevel (1 / 2)).m_level.entries = [(0, 1 / 2), (1, 1 / 2)] := by
  have h : demoState.2.m_level.entries = [(0, 1), (1, 1)] := by decide
  show (demoState.2.m_level.entries.foldl (fun acc stream => acc.insert stream.1 (1 / 2))
    demoState.2.m_level).entries = _
  rw [foldl_insert_own_keys, h]
  rfl

/-- C8: `level(i)` returns the stored value, without a violation, when the level map has an
entry for `i`, and reports a violation and returns `0` (not the unity gain `1`) when it has
none; `balance(i)` likewise returns the stored coefficient or reports and returns `0`. Both
are read-only accessors (they return no channel). In particular `level(7)` after
`setSource` with a two-channel source on a fresh channel reports and returns `0`. -/
theorem level_balance_missing_index (ch : MixerChannel) (i : Nat) :
    (∀ v, ch.m_level.find i = some v → ch.level i = ⟨v, false⟩) ∧
      (i ∉ ch.m_level.keys → ch.level i = ⟨0, true⟩) ∧
      (0 : ℚ) ≠ 1 ∧
      (∀ b, ch.m_balance.find i = some b → ch.balance i = ⟨b, false⟩) ∧
      (i ∉ ch.m_balance.keys → ch.balance i = ⟨Cplx.ofReal 0, true⟩) ∧
      (∀ (w : World) (source : Nat) (a : Bool) (r : Nat),
        (w.sources source).audioChannelsCount = 2 →
        ∃ ch2, setSource w (fresh a r) source = some ch2 ∧ ch2.level 7 = ⟨0, true⟩) := by
  refine ⟨?_, ?_, by norm_num, ?_, ?_, ?_⟩
  · intro v hv
    simp [level, hv]
  · intro hi
    have hf : ch.m_level.find i = none := (findEntry_eq_none_iff i ch.m_level.entries).2 hi
    simp [level, hf]
  · intro b hb
    simp [balance, hb]
  · intro hi
    have hf : ch.m_balance.find i = none := (findEntry_eq_none_iff i ch.m_balance.entries).2 hi
    simp [balance, hf]
  · intro w source a r hN
    refine ⟨(updateLoop 2 { fresh a r with m_source := some source }).setActive true, ?_, ?_⟩
    · simp [setSource, updateBalanceLevelMaps, hN]
    · have hf : ((updateLoop 2 { fresh a r with m_source := some source }).setActive
          true).m_level.find 7 = none := by
        show findEntry 7 (updateLoop 2 _).m_level.entries = none
        rw [updateLoop_level_entries, findEntry_foldl_insertEntry (fun _ => (1 : ℚ))]
        simp [fresh, StdMap.empty, findEntry]
      simp [level, hf]

/-- C10: when the stream count of the processor equals `audioChannelsCount()`,
`setProcessor(k, p)` hands the stored sample rate of the channel to `p` (one call), and
installs `p` at slot `k`: afterwards `processor(k)` returns `p` without a violation,
`processor(j)` answers as before for every `j ≠ k`, and the other members are unchanged.
On every channel `processor(j)` returns null exactly when slot `j` has no occupant. -/
theorem setProcessor_installs (w : World) (ch : MixerChannel) (k : Nat) (p : Nat)
    (h : (w.processors p).streamCount = (audioChannelsCount w ch).value) :
    ((setProcessor w ch k p).1.processors p).sampleRate = ch.m_sampleRate ∧
      (setProcessor w ch k p).1.calls = w.calls ++ [Call.processorSetSampleRate p ch.m_sampleRate] ∧
      (setProcessor w ch k p).2.processor k = ⟨some p, false⟩ ∧
      (∀ j, j ≠ k → (setProcessor w ch k p).2.processor j = ch.processor j) ∧
      (∀ j, ((setProcessor w ch k p).2.processor j).value = none ↔
        j ∉ (setProcessor w ch k p).2.m_processorList.keys) ∧
      (∀ j, (ch.processor j).value = none ↔ j ∉ ch.m_processorList.keys) ∧
      (setProcessor w ch k p).2 =
        { ch with m_processorList := ch.m_processorList.insert k p } := by
  have hnull : ∀ (c : MixerChannel) (j : Nat),
      (c.processor j).value = none ↔ j ∉ c.m_processorList.keys := by
    intro c j
    rw [StdMap.keys, ← findEntry_eq_none_iff]
    unfold processor StdMap.find
    cases findEntry j c.m_processorList.entries <;> simp
  have hset : setProcessor w ch k p =
      (w.processorSetSampleRate p ch.m_sampleRate,
        { ch with m_processorList := ch.m_processorList.insert k p }) := by
    unfold setProcessor
    rw [if_pos h]
  refine ⟨?_, ?_, ?_, ?_, fun j => hnull _ j, fun j => hnull ch j, ?_⟩
  · rw [hset]
    simp [World.processorSetSampleRate]
  · rw [hset]
    rfl
  · rw [hset]
    have hf : (ch.m_processorList.insert k p).find k = some p :=
      findEntry_insertEntry_self k p ch.m_processorList.entries
    simp [processor, hf]
  · intro j hj
    rw [hset]
    have hf : (ch.m_processorList.insert k p).find j = ch.m_processorList.find j :=
      findEntry_insertEntry_ne j k p ch.m_processorList.entries hj
    simp [processor, hf]
  · rw [hset]

/-- Witness of C10: the stereo processor 233 replaces the occupant of slot 3. -/
theorem setProcessor_installs_witness :
    (demoState.1.processors 233).streamCount = (audioChannelsCount demoState.1 demoState.2).value ∧
      (((setProcessor demoState.1 demoState.2 3 233).1.processors 233).sampleRate =
          demoState.2.m_sampleRate ∧
        (setProcessor demoState.1 demoState.2 3 233).1.calls =
          demoState.1.calls ++ [Call.processorSetSampleRate 233 demoState.2.m_sampleRate] ∧
        (setProcessor demoState.1 demoState.2 3 233).2.processor 3 = ⟨some 233, false⟩ ∧
        (∀ j, j ≠ 3 →
          (setProcessor demoState.1 demoState.2 3 233).2.processor j = demoState.2.processor j) ∧
        (∀ j, ((setProcessor demoState.1 demoState.2 3 233).2.processor j).value = none ↔
          j ∉ (setProcessor demoState.1 demoState.2 3 233).2.m_processorList.keys) ∧
        (∀ j, (demoState.2.processor j).value = none ↔ j ∉ demoState.2.m_processorList.keys) ∧
        (setProcessor demoState.1 demoState.2 3 233).2 =
          { demoState.2 with m_processorList := demoState.2.m_processorList.insert 3 233 }) :=
  ⟨by decide, setProcessor_installs demoState.1 demoState.2 3 233 (by decide)⟩

/-- The installation evaluated: slot 3 held 231 and holds 233 afterwards, the slots 1 and 2
keep their occupants, slot 4 is empty, and 233 has received the stored rate 44100. -/
theorem setProcessor_demo_installed :
    (demoState.2.processor 3).value = some 231 ∧
      (setProcessor demoState.1 demoState.2 3 233).2.m_processorList.entries =
        [(1, 211), (2, 221), (3, 233)] ∧
      ((setProcessor demoState.1 demoState.2 3 233).2.processor 4) = ⟨none, true⟩ ∧
      ((setProcessor demoState.1 demoState.2 3 233).1.processors 233).sampleRate = 44100 := by
  decide

/-! ## The map invariant -/

theorem StdMap.keys_eq_range {α : Type} (m : StdMap α) (K : Nat)
    (h : ∀ x, x ∈ m.keys ↔ x < K) : m.keys = List.range K := by
  have hs₁ : List.Sorted (fun a b : Nat => a < b) m.keys := m.ascending
  have hs₂ : List.Sorted (fun a b : Nat => a < b) (List.range K) := List.sorted_lt_range K
  have hn₁ : m.keys.Nodup := List.Pairwise.imp (fun hab => Nat.ne_of_lt hab) m.ascending
  have hp : List.Perm m.keys (List.range K) := by
    rw [List.perm_ext_iff_of_nodup hn₁ (List.nodup_range K)]
    intro x
    rw [h x, List.mem_range]
  exact List.eq_of_perm_of_sorted hp hs₁ hs₂

theorem StdMap.size_of_keys {α : Type} (m : StdMap α) (K : Nat) (h : m.keys = List.range K) :
    m.size = K := by
  have := congrArg List.length h
  simpa [StdMap.keys, StdMap.size] using this

theorem updateLoop_keys_range (n K : Nat) (ch : MixerChannel)
    (hl : ch.m_level.keys = List.range K) (hb : ch.m_balance.keys = List.range K)
    (hK : K ≤ n) :
    (updateLoop n ch).m_level.keys = List.range n ∧
      (updateLoop n ch).m_balance.keys = List.range n := by
  constructor
  · apply StdMap.keys_eq_range
    intro x
    unfold StdMap.keys at hl ⊢
    rw [updateLoop_level_entries, mem_keys_foldl_insertEntry (fun _ => (1 : ℚ)), hl]
    simp only [List.mem_range]
    omega
  · apply StdMap.keys_eq_range
    intro x
    unfold StdMap.keys at hb ⊢
    rw [updateLoop_balance_entries, mem_keys_foldl_insertEntry (balanceAt n), hb]
    simp only [List.mem_range]
    omega

theorem insert_keys_of_range {α : Type} (m : StdMap α) (K i : Nat) (v : α)
    (h : m.keys = List.range K) (hi : i ∈ m.keys) : (m.insert i v).keys = List.range K := by
  apply StdMap.keys_eq_range
  intro x
  rw [h, List.mem_range] at hi
  have hx : x ∈ (m.insert i v).keys ↔ x = i ∨ x ∈ m.keys := by
    unfold StdMap.keys StdMap.insert
    exact mem_keys_insertEntry x i v m.entries
  rw [hx, h, List.mem_range]
  omega

theorem setSource_eq (w : World) (ch : MixerChannel) (source : Nat) :
    setSource w ch source =
      some ((updateLoop (w.sources source).audioChannelsCount
        { ch with m_source := some source }).setActive true) := rfl

theorem processSlot_sources (n : Nat) (acc : World × Buffer) (p : Nat) :
    (processSlot n acc p).1.sources = acc.1.sources := by
  unfold processSlot
  split_ifs <;> rfl

theorem process_sources (w : World) (ch : MixerChannel) (buffer : Buffer) (n : Nat) :
    (process w ch buffer n).1.sources = w.sources := by
  unfold process
  cases ch.m_source with
  | none => rfl
  | some s =>
    simp only []
    generalize (w.sources s).process buffer n = b
    have hgen : ∀ (l : List (Nat × Nat)) (acc : World × Buffer),
        (l.foldl (fun acc p => processSlot n acc p.2) acc).1.sources = acc.1.sources := by
      intro l
      induction l with
      | nil => intro acc; rfl
      | cons d rest ih =>
        intro acc
        rw [List.foldl_cons, ih, processSlot_sources]
    rw [hgen]
    rfl

theorem setSampleRate_channels (w : World) (ch : MixerChannel) (r : Nat) (s : Nat) :
    ((setSampleRate w ch r).1.sources s).audioChannelsCount =
      (w.sources s).audioChannelsCount := by
  unfold setSampleRate
  cases ch.m_source with
  | none => rfl
  | some src =>
    simp only []
    rw [(foldl_processorSetSampleRate r ch.m_processorList.entries
      (w.sourceSetSampleRate src r)).1]
    by_cases hs : s = src
    · subst hs
      simp [World.sourceSetSampleRate]
    · simp [World.sourceSetSampleRate, Function.update_noteq hs]

theorem setSampleRate_channel (w : World) (ch : MixerChannel) (r : Nat) :
    (setSampleRate w ch r).2 = { ch with m_sampleRate := r } := by
  unfold setSampleRate
  split <;> rfl

theorem setProcessor_frame (w : World) (ch : MixerChannel) (k p : Nat) :
    (setProcessor w ch k p).1.sources = w.sources ∧
      (setProcessor w ch k p).2.m_level = ch.m_level ∧
      (setProcessor w ch k p).2.m_balance = ch.m_balance ∧
      (setProcessor w ch k p).2.m_source = ch.m_source := by
  unfold setProcessor
  split_ifs <;> exact ⟨rfl, rfl, rfl, rfl⟩

theorem checkStreams_of_KeysInv (w : World) (ch : MixerChannel) (source : Nat)
    (hinv : KeysInv (w, ch)) (hsrc : ch.m_source = some source) :
    ∃ ch1, checkStreams w ch = some ch1 ∧ ch1.m_source = some source ∧
      ch1.m_level.keys = List.range (w.sources source).audioChannelsCount ∧
      ch1.m_balance.keys = List.range (w.sources source).audioChannelsCount := by
  obtain ⟨K, hl, hb, hK⟩ := hinv
  have hKle := hK source hsrc
  have hsize : ch.m_level.size = K := StdMap.size_of_keys ch.m_level K hl
  unfold checkStreams audioChannelsCount updateBalanceLevelMaps
  simp only [hsrc, hsize]
  split_ifs with hne
  · obtain ⟨h1, h2⟩ := updateLoop_keys_range (w.sources source).audioChannelsCount K ch hl hb hKle
    refine ⟨_, rfl, ?_, h1, h2⟩
    rw [(updateLoop_fields _ ch).1, hsrc]
  · have hEq : (w.sources source).audioChannelsCount = K := by
      simpa using hne
    refine ⟨ch, rfl, hsrc, ?_, ?_⟩
    · rw [hEq, hl]
    · rw [hEq, hb]

theorem KeysInv_step (st st1 : World × MixerChannel) (op : Op) (hinv : KeysInv st)
    (hadm : admits st op) (hstep : step st op = some st1) : KeysInv st1 := by
  obtain ⟨w, ch⟩ := st
  obtain ⟨K, hl, hb, hK⟩ := hinv
  have hsl : ch.m_level.size = K := StdMap.size_of_keys ch.m_level K hl
  have hsb : ch.m_balance.size = K := StdMap.size_of_keys ch.m_balance K hb
  simp only at hl hb hK
  cases op with
  | setSource source =>
    simp only [step, setSource_eq, Option.map_some', Option.some.injEq] at hstep
    subst hstep
    simp only [admits, hsl, hsb] at hadm
    obtain ⟨h1, h2⟩ := updateLoop_keys_range (w.sources source).audioChannelsCount K
      { ch with m_source := some source } hl hb hadm.1
    exact ⟨(w.sources source).audioChannelsCount, h1, h2, fun s hs => by
      have hsrc : (updateLoop (w.sources source).audioChannelsCount
          { ch with m_source := some source }).m_source = some source :=
        (updateLoop_fields _ _).1
      have : some source = some s := hsrc.symm.trans hs
      cases this
      exact le_refl _⟩
  | setLevel level =>
    simp only [step, Option.some.injEq] at hstep
    subst hstep
    refine ⟨K, ?_, hb, hK⟩
    show (ch.m_level.entries.foldl (fun acc stream => acc.insert stream.1 level)
      ch.m_level).keys = _
    unfold StdMap.keys at hl ⊢
    rw [foldl_insert_own_keys, ← hl]
    simp [Function.comp_def]
  | setLevelAt streamId level =>
    simp only [step, Option.some.injEq] at hstep
    subst hstep
    exact ⟨K, insert_keys_of_range ch.m_level K streamId level hl hadm, hb, hK⟩
  | setBalance value =>
    simp only [step, Option.some.injEq] at hstep
    subst hstep
    refine ⟨K, hl, ?_, hK⟩
    show (ch.m_balance.entries.foldl (fun acc stream => acc.insert stream.1 value)
      ch.m_balance).keys = _
    unfold StdMap.keys at hb ⊢
    rw [foldl_insert_own_keys, ← hb]
    simp [Function.comp_def]
  | setBalanceAt streamId value =>
    simp only [step, Option.some.injEq] at hstep
    subst hstep
    exact ⟨K, hl, insert_keys_of_range ch.m_balance K streamId value hb hadm, hK⟩
  | setProcessor number proc =>
    simp only [step, Option.some.injEq] at hstep
    subst hstep
    obtain ⟨f1, f2, f3, f4⟩ := setProcessor_frame w ch number proc
    refine ⟨K, by rw [f2]; exact hl, by rw [f3]; exact hb, fun s hs => ?_⟩
    rw [f1]
    exact hK s (f4 ▸ hs)
  | setSampleRate sampleRate =>
    simp only [step, Option.some.injEq] at hstep
    subst hstep
    refine ⟨K, by rw [setSampleRate_channel]; exact hl,
      by rw [setSampleRate_channel]; exact hb, fun s hs => ?_⟩
    rw [setSampleRate_channels]
    rw [setSampleRate_channel] at hs
    exact hK s hs
  | setActive active =>
    simp only [step, Option.some.injEq] at hstep
    subst hstep
    exact ⟨K, hl, hb, hK⟩
  | process buffer sampleCount =>
    simp only [step, Option.some.injEq] at hstep
    subst hstep
    refine ⟨K, hl, hb, fun s hs => ?_⟩
    rw [process_sources]
    exact hK s hs
  | checkStreams =>
    simp only [step] at hstep
    cases hsrc : ch.m_source with
    | none =>
      unfold checkStreams audioChannelsCount updateBalanceLevelMaps at hstep
      simp only [hsrc] at hstep
      split_ifs at hstep with hne
      · simp at hstep
      · simp only [Option.map_some', Option.some.injEq] at hstep
        subst hstep
        exact ⟨K, hl, hb, hK⟩
    | some source =>
      obtain ⟨ch1, hc, hs1, h1, h2⟩ := checkStreams_of_KeysInv w ch source ⟨K, hl, hb, hK⟩ hsrc
      rw [hc] at hstep
      simp only [Option.map_some', Option.some.injEq] at hstep
      subst hstep
      exact ⟨(w.sources source).audioChannelsCount, h1, h2, fun s hs => by
        have : some source = some s := hs1.symm.trans hs
        cases this
        exact le_refl _⟩
  | sourceChannelsChanged source count =>
    simp only [step, Option.some.injEq] at hstep
    subst hstep
    refine ⟨K, hl, hb, fun s hs => ?_⟩
    by_cases hss : s = source
    · subst hss
      simp only [admits, hsl, hsb] at hadm
      simp [World.sourceChannelsChanged, (hadm hs).1]
    · simp only [World.sourceChannelsChanged, Function.update_noteq hss]
      exact hK s hs
  | channelsCountNotified =>
    simp only [step] at hstep
    cases hsrc : ch.m_source with
    | none =>
      simp only [hsrc, Option.some.injEq] at hstep
      subst hstep
      exact ⟨K, hl, hb, hK⟩
    | some source =>
      simp only [hsrc, onAudioChannelsCountChanged, updateBalanceLevelMaps, Option.map_some',
        Option.some.injEq] at hstep
      subst hstep
      obtain ⟨h1, h2⟩ := updateLoop_keys_range (w.sources source).audioChannelsCount K ch hl hb
        (hK source hsrc)
      exact ⟨(w.sources source).audioChannelsCount, h1, h2, fun s hs => by
        have hsrc2 : (updateLoop (w.sources source).audioChannelsCount ch).m_source =
            some source := by
          rw [(updateLoop_fields _ ch).1, hsrc]
        have : some source = some s := hsrc2.symm.trans hs
        cases this
        exact le_refl _⟩

theorem KeysInv_run (ops : List Op) (st st1 : World × MixerChannel) (hinv : KeysInv st)
    (hadm : Admissible st ops) (hrun : run st ops = some st1) : KeysInv st1 := by
  induction ops generalizing st with
  | nil =>
    simp only [run, Option.some.injEq] at hrun
    exact hrun ▸ hinv
  | cons op rest ih =>
    unfold Admissible at hadm
    unfold run at hrun
    cases hs : step st op with
    | none => simp [hs] at hrun
    | some st2 =>
      rw [hs] at hrun
      simp only [hs] at hadm
      exact ih st2 (KeysInv_step st st2 op hinv hadm.1 hs) hadm.2 hrun

theorem KeysInv_fresh (w : World) (a : Bool) (r : Nat) : KeysInv (w, fresh a r) :=
  ⟨0, rfl, rfl, fun s hs => by simp [fresh] at hs⟩

/-- C9 as stated fails: after `setSource` with a two-channel source and the indexed
`setBalance(5, 0)`, the level map still has two entries, so `checkStreams` does not
reconcile, and the balance map has the keys 0, 1 and 5 although the source has the stream
indices 0 and 1. -/
theorem checkStreams_keeps_stray_entry :
    ∃ w ch ch1,
      run (demoWorld, fresh false 0) [Op.setSource 2, Op.setBalanceAt 5 (Cplx.ofReal 0)] =
        some (w, ch) ∧
      ch.m_source = some 2 ∧ (audioChannelsCount w ch).value = 2 ∧
      checkStreams w ch = some ch1 ∧
      ch1.m_level.keys = [0, 1] ∧ ch1.m_balance.keys = [0, 1, 5] ∧
      ch1.m_balance.keys ≠ List.range (audioChannelsCount w ch1).value :=
  ⟨_, _, _, rfl, rfl, rfl, rfl, rfl, rfl, by decide⟩

/-- C9 (amended): in every state with a source assigned that is reached from a fresh channel
by a sequence of operations in which the indexed setters only address streams that already
have an entry and no newly assigned source or channel-count change reports fewer channels
than the maps have entries, `checkStreams` returns, and afterwards the level map and the
balance map each have exactly the keys `0..audioChannelsCount()-1`. -/
theorem checkStreams_exact_keys (w0 : World) (a : Bool) (r : Nat) (ops : List Op)
    (w : World) (ch : MixerChannel) (source : Nat)
    (hadm : Admissible (w0, fresh a r) ops)
    (hrun : run (w0, fresh a r) ops = some (w, ch))
    (hsrc : ch.m_source = some source) :
    ∃ ch1, checkStreams w ch = some ch1 ∧
      (audioChannelsCount w ch1).value = (w.sources source).audioChannelsCount ∧
      ch1.m_level.keys = List.range (audioChannelsCount w ch1).value ∧
      ch1.m_balance.keys = List.range (audioChannelsCount w ch1).value := by
  have hinv : KeysInv (w, ch) :=
    KeysInv_run ops (w0, fresh a r) (w, ch) (KeysInv_fresh w0 a r) hadm hrun
  obtain ⟨ch1, hc, hs1, h1, h2⟩ := checkStreams_of_KeysInv w ch source hinv hsrc
  have hcount : (audioChannelsCount w ch1).value = (w.sources source).audioChannelsCount := by
    simp [audioChannelsCount, hs1]
  exact ⟨ch1, hc, hcount, by rw [hcount]; exact h1, by rw [hcount]; exact h2⟩

/-- Witness of C9 (amended): the sequence `demoOps`, in which the source grows from two to
three channels before `checkStreams` is called. -/
theorem checkStreams_exact_keys_witness :
    Admissible (demoWorld, fresh false 0) demoOps ∧
      run (demoWorld, fresh false 0) demoOps = some (demoRun.1, demoRun.2) ∧
      demoRun.2.m_source = some 2 ∧
      ∃ ch1, checkStreams demoRun.1 demoRun.2 = some ch1 ∧
        (audioChannelsCount demoRun.1 ch1).value = (demoRun.1.sources 2).audioChannelsCount ∧
        ch1.m_level.keys = List.range (audioChannelsCount demoRun.1 ch1).value ∧
        ch1.m_balance.keys = List.range (audioChannelsCount demoRun.1 ch1).value :=
  ⟨by decide, rfl, rfl,
    checkStreams_exact_keys demoWorld false 0 demoOps demoRun.1 demoRun.2 2 (by decide) rfl rfl⟩

/-- The amended invariant evaluated: before `checkStreams` the maps of `demoRun` have the
keys 0 and 1 while the source reports three channels; afterwards both have 0, 1 and 2. -/
theorem checkStreams_demo :
    demoRun.2.m_level.keys = [0, 1] ∧ (audioChannelsCount demoRun.1 demoRun.2).value = 3 ∧
      ∃ ch1, checkStreams demoRun.1 demoRun.2 = some ch1 ∧
        ch1.m_level.keys = [0, 1, 2] ∧ ch1.m_balance.keys = [0, 1, 2] :=
  ⟨by decide, by decide, _, rfl, by decide, by decide⟩

/-! ## Operations on a channel without a source -/

/-- C11: on a channel without a source `process` returns the buffer and the world as they
were: no call is recorded (neither on a source nor on a processor of a non-empty slot
table), and the channel is the same after the operation. -/
theorem process_without_source (w : World) (ch : MixerChannel) (buffer : Buffer) (n : Nat)
    (h : ch.m_source = none) :
    process w ch buffer n = (w, buffer) ∧
      (process w ch buffer n).1.calls = w.calls ∧
      step (w, ch) (Op.process buffer n) = some (w, ch) := by
  have hp : process w ch buffer n = (w, buffer) := by
    unfold process
    rw [h]
  refine ⟨hp, by rw [hp], ?_⟩
  simp only [step, hp]

/-- Witness of C11: the unconfigured channel whose slot 1 holds the active processor 1. -/
theorem process_without_source_witness :
    demoUnconfigured.2.m_source = none ∧
      demoUnconfigured.2.m_processorList.entries = [(1, 1)] ∧
      (demoUnconfigured.1.processors 1).active = true ∧
      (process demoUnconfigured.1 demoUnconfigured.2 [7, 8] 2 = (demoUnconfigured.1, [7, 8]) ∧
        (process demoUnconfigured.1 demoUnconfigured.2 [7, 8] 2).1.calls =
          demoUnconfigured.1.calls ∧
        step (demoUnconfigured.1, demoUnconfigured.2) (Op.process [7, 8] 2) =
          some (demoUnconfigured.1, demoUnconfigured.2)) :=
  ⟨rfl, by decide, by decide,
    process_without_source demoUnconfigured.1 demoUnconfigured.2 [7, 8] 2 rfl⟩

/-- C12: on a channel without a source `setSampleRate(r)` stores `r` and changes nothing
else: the world is returned as it was (no source and no processor of the slot table
receives the rate, no call is recorded); a following successful `setProcessor` hands `r` to
the processor it installs. -/
theorem setSampleRate_without_source (w : World) (ch : MixerChannel) (r : Nat)
    (h : ch.m_source = none) :
    setSampleRate w ch r = (w, { ch with m_sampleRate := r }) ∧
      (setSampleRate w ch r).2.m_sampleRate = r ∧
      (∀ p, ((setSampleRate w ch r).1.processors p).sampleRate = (w.processors p).sampleRate) ∧
      (∀ s, ((setSampleRate w ch r).1.sources s).sampleRate = (w.sources s).sampleRate) ∧
      (setSampleRate w ch r).1.calls = w.calls ∧
      ∀ k p, (w.processors p).streamCount =
          (audioChannelsCount (setSampleRate w ch r).1 (setSampleRate w ch r).2).value →
        ((setProcessor (setSampleRate w ch r).1 (setSampleRate w ch r).2 k p).1.processors
          p).sampleRate = r ∧
        ((setProcessor (setSampleRate w ch r).1 (setSampleRate w ch r).2 k p).2.processor
          k).value = some p := by
  have hs : setSampleRate w ch r = (w, { ch with m_sampleRate := r }) := by
    unfold setSampleRate
    split
    · rfl
    · rename_i s hsome
      rw [h] at hsome
      cases hsome
  rw [hs]
  refine ⟨rfl, rfl, fun _ => rfl, fun _ => rfl, rfl, ?_⟩
  intro k p hp
  simp only at hp
  constructor
  · unfold setProcessor
    rw [if_pos hp]
    simp [World.processorSetSampleRate]
  · unfold setProcessor
    rw [if_pos hp]
    have hf : (ch.m_processorList.insert k p).find k = some p :=
      findEntry_insertEntry_self k p ch.m_processorList.entries
    simp [processor, hf]

/-- Witness of C12: the unconfigured channel whose slot 1 holds the processor 1. -/
theorem setSampleRate_without_source_witness :
    demoUnconfigured.2.m_source = none ∧
      (setSampleRate demoUnconfigured.1 demoUnconfigured.2 48000 =
          (demoUnconfigured.1, { demoUnconfigured.2 with m_sampleRate := 48000 }) ∧
        (setSampleRate demoUnconfigured.1 demoUnconfigured.2 48000).2.m_sampleRate = 48000 ∧
        (∀ p, ((setSampleRate demoUnconfigured.1 demoUnconfigured.2 48000).1.processors
          p).sampleRate = (demoUnconfigured.1.processors p).sampleRate) ∧
        (∀ s, ((setSampleRate demoUnconfigured.1 demoUnconfigured.2 48000).1.sources
          s).sampleRate = (demoUnconfigured.1.sources s).sampleRate) ∧
        (setSampleRate demoUnconfigured.1 demoUnconfigured.2 48000).1.calls =
          demoUnconfigured.1.calls ∧
        ∀ k p, (demoUnconfigured.1.processors p).streamCount =
            (audioChannelsCount (setSampleRate demoUnconfigured.1 demoUnconfigured.2 48000).1
              (setSampleRate demoUnconfigured.1 demoUnconfigured.2 48000).2).value →
          ((setProcessor (setSampleRate demoUnconfigured.1 demoUnconfigured.2 48000).1
            (setSampleRate demoUnconfigured.1 demoUnconfigured.2 48000).2 k p).1.processors
              p).sampleRate = 48000 ∧
          ((setProcessor (setSampleRate demoUnconfigured.1 demoUnconfigured.2 48000).1
            (setSampleRate demoUnconfigured.1 demoUnconfigured.2 48000).2 k p).2.processor
              k).value = some p) :=
  ⟨rfl, setSampleRate_without_source demoUnconfigured.1 demoUnconfigured.2 48000 rfl⟩

/-- The unconfigured `setSampleRate` evaluated: the processor 1 already in the slot table
keeps the rate 0 it was given on installation, and the processor 3 installed afterwards
receives 48000. -/
theorem setSampleRate_without_source_demo :
    ((setSampleRate demoUnconfigured.1 demoUnconfigured.2 48000).1.processors 1).sampleRate = 0 ∧
      ((setProcessor (setSampleRate demoUnconfigured.1 demoUnconfigured.2 48000).1
        (setSampleRate demoUnconfigured.1 demoUnconfigured.2 48000).2 2 3).1.processors
          3).sampleRate = 48000 := by
  decide

/-- C13 (the code at the failing input): on a fresh channel the indexed `setLevel(0, 3)`
creates a level entry; with no source `audioChannelsCount()` reports the violation and
returns 0, which differs from the level-map size 1, so `checkStreams` enters
`updateBalanceLevelMaps`, which dereferences the null `m_source`: the call faults. -/
theorem checkStreams_unconfigured_faults :
    ∃ st, run (demoWorld, fresh false 0) [Op.setLevelAt 0 3] = some st ∧
      st.2.m_source = none ∧
      audioChannelsCount st.1 st.2 = ⟨0, true⟩ ∧
      st.2.m_level.size = 1 ∧
      updateBalanceLevelMaps st.1 st.2 = none ∧
      checkStreams st.1 st.2 = none ∧
      run (demoWorld, fresh false 0) [Op.setLevelAt 0 3, Op.checkStreams] = none :=
  ⟨_, rfl, rfl, rfl, rfl, rfl, rfl, rfl⟩

/-! ## Reconciliation of a configured channel -/

theorem updateLoop_values (n : Nat) (ch : MixerChannel) (c : Nat) (hc : c < n) :
    (updateLoop n ch).m_level.find c = some 1 ∧
      (updateLoop n ch).m_balance.find c = some (balanceAt n c) := by
  constructor
  · show findEntry c (updateLoop n ch).m_level.entries = _
    rw [updateLoop_level_entries, findEntry_foldl_insertEntry (fun _ => (1 : ℚ))]
    simp [hc]
  · show findEntry c (updateLoop n ch).m_balance.entries = _
    rw [updateLoop_balance_entries, findEntry_foldl_insertEntry (balanceAt n)]
    simp [hc]

theorem balanceAt_eq (n c : Nat) (hn : 0 < n) :
    balanceAt n c = Cplx.ofReal (if n = 1 then 0 else 2 * (c : ℚ) / ((n : ℚ) - 1) - 1) := by
  unfold balanceAt
  by_cases h1 : n = 1
  · simp [h1]
  · have hgt : n > 1 := by omega
    have hcast : (((n - 1 : Nat)) : ℚ) = (n : ℚ) - 1 := by
      rw [Nat.cast_sub (by omega)]
      simp
    simp [h1, hgt, hcast]

theorem updateLoop_reads (n : Nat) (ch : MixerChannel) (c : Nat) (hc : c < n) :
    (updateLoop n ch).level c = ⟨1, false⟩ ∧
      (updateLoop n ch).balance c =
        ⟨Cplx.ofReal (if n = 1 then 0 else 2 * (c : ℚ) / ((n : ℚ) - 1) - 1), false⟩ := by
  obtain ⟨hl, hb⟩ := updateLoop_values n ch c hc
  rw [balanceAt_eq n c (by omega)] at hb
  constructor
  · simp only [level, hl]
  · simp only [balance, hb]

/-- The reset evaluated: `demoGains` reads level 3 on stream 1 and balance 5 on stream 0;
after reconciliation stream 1 reads level 1 and stream 0 reads balance -1. -/
theorem updateBalanceLevelMaps_demo :
    (demoGains.level 1).value = 3 ∧ (demoGains.balance 0).value = Cplx.ofReal 5 ∧
      ∃ ch1, updateBalanceLevelMaps demoState.1 demoGains = some ch1 ∧
        (ch1.level 1).value = 1 ∧ (ch1.balance 0).value = Cplx.ofReal (-1) := by
  refine ⟨by decide, by decide, updateLoop 2 demoGains, rfl, ?_, ?_⟩
  · rw [(updateLoop_reads 2 demoGains 1 (by decide)).1]
  · rw [(updateLoop_reads 2 demoGains 0 (by decide)).2]
    norm_num

/-- C15: on a configured channel `checkStreams` is decided by the comparison of
`audioChannelsCount()` with the size of the level map alone: when they are equal the channel
is returned unchanged (levels and balances keep their values), and otherwise the result is
the one of `updateBalanceLevelMaps`, which returns. -/
theorem checkStreams_by_level_size (w : World) (ch : MixerChannel) (source : Nat)
    (hsrc : ch.m_source = some source) :
    (audioChannelsCount w ch).value = (w.sources source).audioChannelsCount ∧
      ((audioChannelsCount w ch).value = ch.m_level.size → checkStreams w ch = some ch) ∧
      ((audioChannelsCount w ch).value ≠ ch.m_level.size →
        checkStreams w ch = updateBalanceLevelMaps w ch ∧
        checkStreams w ch = some (updateLoop (w.sources source).audioChannelsCount ch)) := by
  refine ⟨?_, ?_, ?_⟩
  · simp [audioChannelsCount, hsrc]
  · intro heq
    unfold checkStreams
    rw [if_neg (fun hne => hne heq)]
  · intro hne
    have h1 : checkStreams w ch = updateBalanceLevelMaps w ch := by
      unfold checkStreams
      rw [if_pos hne]
    refine ⟨h1, ?_⟩
    rw [h1]
    unfold updateBalanceLevelMaps
    rw [hsrc]

/-- Witness of C15: `demoGains`, whose level map has as many entries as its source has
channels. -/
theorem checkStreams_by_level_size_witness :
    demoGains.m_source = some 2 ∧
      ((audioChannelsCount demoState.1 demoGains).value =
          (demoState.1.sources 2).audioChannelsCount ∧
        ((audioChannelsCount demoState.1 demoGains).value = demoGains.m_level.size →
          checkStreams demoState.1 demoGains = some demoGains) ∧
        ((audioChannelsCount demoState.1 demoGains).value ≠ demoGains.m_level.size →
          checkStreams demoState.1 demoGains = updateBalanceLevelMaps demoState.1 demoGains ∧
          checkStreams demoState.1 demoGains =
            some (updateLoop (demoState.1.sources 2).audioChannelsCount demoGains))) :=
  ⟨rfl, checkStreams_by_level_size demoState.1 demoGains 2 rfl⟩

/-- The two branches of `checkStreams` evaluated: with two channels and two level entries
the level 3 set by hand survives; once the source reports three channels the maps are
reconciled and the level of stream 1 is back to 1. -/
theorem checkStreams_branches_demo :
    (∃ ch1, checkStreams demoState.1 demoGains = some ch1 ∧ (ch1.level 1).value = 3) ∧
      ∃ ch2, checkStreams (demoState.1.sourceChannelsChanged 2 3) demoGains = some ch2 ∧
        (ch2.level 1).value = 1 ∧ ch2.m_level.keys = [0, 1, 2] :=
  ⟨⟨_, rfl, by decide⟩, ⟨_, rfl, by decide, by decide⟩⟩

/-! ## Indexed setters -/

/-- C16: for every channel, stream index `i` (in or out of the range of the source) and
value, after the indexed `setLevel(i, v)` the level map has an entry for `i`, `level(i)`
reads `v` without a violation, every other index reads as before and is a key exactly when
it was one, and the balance map, slot table, active flag, source and sample rate are
unchanged; the indexed `setBalance(i, b)` does the same with the two maps exchanged. -/
theorem setLevelAt_setBalanceAt_insert (ch : MixerChannel) (i : Nat) (v : ℚ) (b : Cplx) :
    (i ∈ (ch.setLevelAt i v).m_level.keys ∧
      (ch.setLevelAt i v).level i = ⟨v, false⟩ ∧
      (∀ j, j ≠ i → (ch.setLevelAt i v).level j = ch.level j) ∧
      (∀ j, j ≠ i → (j ∈ (ch.setLevelAt i v).m_level.keys ↔ j ∈ ch.m_level.keys)) ∧
      (ch.setLevelAt i v).m_balance = ch.m_balance ∧
      (ch.setLevelAt i v).m_processorList = ch.m_processorList ∧
      (ch.setLevelAt i v).m_active = ch.m_active ∧
      (ch.setLevelAt i v).m_source = ch.m_source ∧
      (ch.setLevelAt i v).m_sampleRate = ch.m_sampleRate) ∧
    (i ∈ (ch.setBalanceAt i b).m_balance.keys ∧
      (ch.setBalanceAt i b).balance i = ⟨b, false⟩ ∧
      (∀ j, j ≠ i → (ch.setBalanceAt i b).balance j = ch.balance j) ∧
      (∀ j, j ≠ i → (j ∈ (ch.setBalanceAt i b).m_balance.keys ↔ j ∈ ch.m_balance.keys)) ∧
      (ch.setBalanceAt i b).m_level = ch.m_level ∧
      (ch.setBalanceAt i b).m_processorList = ch.m_processorList ∧
      (ch.setBalanceAt i b).m_active = ch.m_active ∧
      (ch.setBalanceAt i b).m_source = ch.m_source ∧
      (ch.setBalanceAt i b).m_sampleRate = ch.m_sampleRate) := by
  have hkeys : ∀ {α : Type} (m : StdMap α) (x : α) (j : Nat),
      j ∈ (m.insert i x).keys ↔ j = i ∨ j ∈ m.keys := by
    intro α m x j
    unfold StdMap.keys StdMap.insert
    exact mem_keys_insertEntry j i x m.entries
  refine ⟨⟨?_, ?_, ?_, ?_, rfl, rfl, rfl, rfl, rfl⟩, ⟨?_, ?_, ?_, ?_, rfl, rfl, rfl, rfl, rfl⟩⟩
  · exact (hkeys ch.m_level v i).2 (Or.inl rfl)
  · have hf : (ch.m_level.insert i v).find i = some v :=
      findEntry_insertEntry_self i v ch.m_level.entries
    simp [level, setLevelAt, hf]
  · intro j hj
    have hf : (ch.m_level.insert i v).find j = ch.m_level.find j :=
      findEntry_insertEntry_ne j i v ch.m_level.entries hj
    simp [level, setLevelAt, hf]
  · intro j hj
    show j ∈ (ch.m_level.insert i v).keys ↔ _
    rw [hkeys ch.m_level v j]
    simp [hj]
  · exact (hkeys ch.m_balance b i).2 (Or.inl rfl)
  · have hf : (ch.m_balance.insert i b).find i = some b :=
      findEntry_insertEntry_self i b ch.m_balance.entries
    simp [balance, setBalanceAt, hf]
  · intro j hj
    have hf : (ch.m_balance.insert i b).find j = ch.m_balance.find j :=
      findEntry_insertEntry_ne j i b ch.m_balance.entries hj
    simp [balance, setBalanceAt, hf]
  · intro j hj
    show j ∈ (ch.m_balance.insert i b).keys ↔ _
    rw [hkeys ch.m_balance b j]
    simp [hj]

/-- The indexed setter evaluated outside the range of the source: on the two-channel
channel `setLevel(7, 3)` creates the entry 7, which then reads 3. -/
theorem setLevelAt_demo :
    (audioChannelsCount demoState.1 demoState.2).value = 2 ∧
      (demoState.2.level 7) = ⟨0, true⟩ ∧
      (demoState.2.setLevelAt 7 3).m_level.keys = [0, 1, 7] ∧
      (demoState.2.setLevelAt 7 3).level 7 = ⟨3, false⟩ := by
  decide

/-! ## What `process` depends on -/

/-- C17: two channels with the same source and the same slot table give the same world and
the same buffer under `process`, whatever their level maps, balance maps and active flags;
and the operation leaves the channel (level map, balance map, active flag, slot table,
sample rate) as it was. -/
theorem process_ignores_gains (w : World) (ch1 ch2 : MixerChannel) (buffer : Buffer)
    (n : Nat) (hs : ch1.m_source = ch2.m_source)
    (ht : ch1.m_processorList = ch2.m_processorList) :
    process w ch1 buffer n = process w ch2 buffer n ∧
      step (w, ch1) (Op.process buffer n) = some ((process w ch1 buffer n).1, ch1) ∧
      step (w, ch2) (Op.process buffer n) = some ((process w ch2 buffer n).1, ch2) := by
  refine ⟨?_, rfl, rfl⟩
  unfold process
  rw [hs, ht]

/-- Witness of C17: `demoState` against the same channel with other gains and the active
flag cleared. -/
theorem process_ignores_gains_witness :
    demoState.2.m_source = (demoGains.setActive false).m_source ∧
      demoState.2.m_processorList = (demoGains.setActive false).m_processorList ∧
      (process demoState.1 demoState.2 [] 4 = process demoState.1 (demoGains.setActive false) [] 4 ∧
        step (demoState.1, demoState.2) (Op.process [] 4) =
          some ((process demoState.1 demoState.2 [] 4).1, demoState.2) ∧
        step (demoState.1, demoGains.setActive false) (Op.process [] 4) =
          some ((process demoState.1 (demoGains.setActive false) [] 4).1,
            demoGains.setActive false)) :=
  ⟨rfl, rfl, process_ignores_gains demoState.1 demoState.2 (demoGains.setActive false) [] 4
    rfl rfl⟩

/-- The independence evaluated: with levels 3, balance 5 and the active flag cleared the
buffer is the one of the source followed by the three processors, as for `demoState`. -/
theorem process_gains_demo :
    (demoGains.setActive false).active = false ∧
      ((demoGains.setActive false).level 0).value = 3 ∧
      (process demoState.1 (demoGains.setActive false) [] 2).2 = [0, 0, 211, 221, 231] ∧
      (process demoState.1 demoState.2 [] 2).2 = [0, 0, 211, 221, 231] := by
  decide

/-! ## Facts about binary32 rounding -/

theorem roundHalfEven_near (y : ℚ) : |(roundHalfEven y : ℚ) - y| ≤ 1 / 2 := by
  have h0 : (0 : ℚ) ≤ y - ⌊y⌋ := by linarith [Int.floor_le y]
  have h1 : y - ⌊y⌋ < 1 := by linarith [Int.lt_floor_add_one y]
  unfold roundHalfEven
  split_ifs with ha hb hc
  · rw [abs_le]; constructor <;> linarith
  · push_cast
    rw [abs_le]; constructor <;> linarith
  · rw [abs_le]; constructor <;> linarith
  · push_cast
    rw [abs_le]; constructor <;> linarith

theorem roundHalfEven_nearest (y : ℚ) (j : ℤ) :
    |(roundHalfEven y : ℚ) - y| ≤ |(j : ℚ) - y| := by
  by_cases hj : j = roundHalfEven y
  · rw [hj]
  · have hne : (1 : ℚ) ≤ |(j : ℚ) - (roundHalfEven y : ℚ)| := by
      have : (1 : ℤ) ≤ |j - roundHalfEven y| := by
        have : j - roundHalfEven y ≠ 0 := sub_ne_zero.2 hj
        exact Int.one_le_abs this
      exact_mod_cast this
    have hk := roundHalfEven_near y
    have htri : |(j : ℚ) - (roundHalfEven y : ℚ)| ≤ |(j : ℚ) - y| + |(roundHalfEven y : ℚ) - y| := by
      have := abs_sub_le (j : ℚ) y (roundHalfEven y : ℚ)
      rwa [abs_sub_comm y (roundHalfEven y : ℚ)] at this
    linarith

theorem roundHalfEven_of_near (y : ℚ) (k : ℤ) (h : |(k : ℚ) - y| < 1 / 2) :
    roundHalfEven y = k := by
  by_contra hne
  have h1 : (1 : ℚ) ≤ |(k : ℚ) - (roundHalfEven y : ℚ)| := by
    have : (1 : ℤ) ≤ |k - roundHalfEven y| :=
      Int.one_le_abs (sub_ne_zero.2 (fun e => hne e.symm))
    exact_mod_cast this
  have hk := roundHalfEven_near y
  have htri : |(k : ℚ) - (roundHalfEven y : ℚ)| ≤ |(k : ℚ) - y| + |(roundHalfEven y : ℚ) - y| := by
    have := abs_sub_le (k : ℚ) y (roundHalfEven y : ℚ)
    rwa [abs_sub_comm y (roundHalfEven y : ℚ)] at this
  linarith


theorem binade (x : ℚ) (hx : x ≠ 0) :
    (2 : ℚ) ^ (Int.log 2 |x|) ≤ |x| ∧ |x| < (2 : ℚ) ^ (Int.log 2 |x| + 1) := by
  have hpos : 0 < |x| := abs_pos.2 hx
  have h1 := Int.zpow_log_le_self (b := 2) (r := |x|) (by norm_num) hpos
  have h2 := Int.lt_zpow_succ_log_self (b := 2) (by norm_num) |x|
  simp only [Nat.cast_ofNat] at h1 h2
  exact ⟨h1, h2⟩

theorem scaled_bounds (x : ℚ) (e : ℤ) (hlo : (2 : ℚ) ^ e ≤ |x|) (hhi : |x| < (2 : ℚ) ^ (e + 1)) :
    (2 : ℚ) ^ 23 ≤ |x / 2 ^ (e - 23)| ∧ |x / 2 ^ (e - 23)| < (2 : ℚ) ^ 24 := by
  have hu : (0 : ℚ) < 2 ^ (e - 23) := zpow_pos (by norm_num) _
  have he : (2 : ℚ) ^ e = 2 ^ 23 * 2 ^ (e - 23) := by
    rw [show e = 23 + (e - 23) by ring, zpow_add₀ (by norm_num)]
    norm_num
  have he1 : (2 : ℚ) ^ (e + 1) = 2 ^ 24 * 2 ^ (e - 23) := by
    rw [show e + 1 = 24 + (e - 23) by ring, zpow_add₀ (by norm_num)]
    norm_num
  rw [abs_div, abs_of_pos hu]
  constructor
  · rw [le_div_iff₀ hu, ← he]
    exact hlo
  · rw [div_lt_iff₀ hu, ← he1]
    exact hhi

theorem roundHalfEven_grid (y s : ℚ) (hy : (2 : ℚ) ^ 23 ≤ |y|)
    (hs : (∃ z : ℤ, s = z) ∨ |s| < (2 : ℚ) ^ 23) :
    |(roundHalfEven y : ℚ) - y| ≤ |s - y| := by
  rcases hs with ⟨z, hz⟩ | hlt
  · rw [hz]
    exact roundHalfEven_nearest y z
  · have hcorner : ∃ t : ℤ, |(t : ℚ) - y| = |y| - 2 ^ 23 := by
      by_cases hpos : 0 ≤ y
      · refine ⟨2 ^ 23, ?_⟩
        rw [abs_of_nonneg hpos] at hy ⊢
        rw [abs_sub_comm, abs_of_nonneg (by push_cast; linarith)]
        push_cast
        ring
      · have hneg : y < 0 := lt_of_not_ge hpos
        refine ⟨-2 ^ 23, ?_⟩
        rw [abs_of_neg hneg] at hy ⊢
        rw [abs_of_nonneg (by push_cast; linarith)]
        push_cast
        ring
    obtain ⟨t, ht⟩ := hcorner
    have h1 := roundHalfEven_nearest y t
    have h2 : |y| - |s| ≤ |s - y| := by
      have := abs_sub_abs_le_abs_sub y s
      rwa [abs_sub_comm y s] at this
    linarith

theorem isF32_scaled (r : ℚ) (hr : IsF32 r) (e : ℤ) :
    (∃ z : ℤ, r / 2 ^ (e - 23) = z) ∨ |r / 2 ^ (e - 23)| < (2 : ℚ) ^ 23 := by
  rcases hr with h0 | ⟨m, k, hm1, hm2, hrm⟩
  · left
    exact ⟨0, by simp [h0]⟩
  · have hdiv : r / 2 ^ (e - 23) = (m : ℚ) * 2 ^ (k - (e - 23)) := by
      rw [hrm, zpow_sub₀ (by norm_num : (2 : ℚ) ≠ 0) k (e - 23)]
      ring
    by_cases hk : e - 23 ≤ k
    · left
      obtain ⟨n, hn⟩ := Int.eq_ofNat_of_zero_le (sub_nonneg.2 hk)
      refine ⟨m * 2 ^ n, ?_⟩
      rw [hdiv, hn]
      push_cast
      rw [zpow_natCast]
    · right
      have hk' : k - (e - 23) ≤ -1 := by omega
      have hpow : (2 : ℚ) ^ (k - (e - 23)) ≤ 2 ^ (-1 : ℤ) :=
        zpow_le_zpow_right₀ (by norm_num) hk'
      have hm2q : |(m : ℚ)| < 2 ^ 24 := by
        have : ((|m| : ℤ) : ℚ) < ((2 ^ 24 : ℤ) : ℚ) := by exact_mod_cast hm2
        simpa using this
      rw [hdiv, abs_mul, abs_of_pos (zpow_pos (by norm_num : (0 : ℚ) < 2) _)]
      have hp0 : (0 : ℚ) < 2 ^ (k - (e - 23)) := zpow_pos (by norm_num) _
      calc |(m : ℚ)| * 2 ^ (k - (e - 23)) < 2 ^ 24 * 2 ^ (k - (e - 23)) :=
            mul_lt_mul_of_pos_right hm2q hp0
        _ ≤ 2 ^ 24 * 2 ^ (-1 : ℤ) := by
            apply mul_le_mul_of_nonneg_left hpow
            norm_num
        _ = 2 ^ 23 := by norm_num

theorem roundF32_nearest (x r : ℚ) (hr : IsF32 r) : |roundF32 x - x| ≤ |r - x| := by
  unfold roundF32
  split_ifs with hx
  · rw [hx]
    simp
  · obtain ⟨hlo, hhi⟩ := binade x hx
    have hu : (0 : ℚ) < 2 ^ (Int.log 2 |x| - 23) := zpow_pos (by norm_num) _
    generalize Int.log 2 |x| = e at hlo hhi hu
    have hy := (scaled_bounds x e hlo hhi).1
    have hgrid := roundHalfEven_grid (x / 2 ^ (e - 23)) (r / 2 ^ (e - 23)) hy
      (isF32_scaled r hr e)
    have e1 : (roundHalfEven (x / 2 ^ (e - 23)) : ℚ) * 2 ^ (e - 23) - x =
        ((roundHalfEven (x / 2 ^ (e - 23)) : ℚ) - x / 2 ^ (e - 23)) * 2 ^ (e - 23) := by
      field_simp
    have e2 : r - x = (r / 2 ^ (e - 23) - x / 2 ^ (e - 23)) * 2 ^ (e - 23) := by
      field_simp
    rw [e1, e2, abs_mul, abs_mul, abs_of_pos hu]
    exact mul_le_mul_of_nonneg_right hgrid (le_of_lt hu)


theorem roundF32_of_isF32 (x : ℚ) (h : IsF32 x) : roundF32 x = x := by
  have := roundF32_nearest x x h
  rw [sub_self, abs_zero] at this
  have h0 : |roundF32 x - x| = 0 := le_antisymm this (abs_nonneg _)
  exact sub_eq_zero.1 (abs_eq_zero.1 h0)

theorem isF32_one : IsF32 1 :=
  Or.inr ⟨2 ^ 23, -23, by norm_num, by norm_num, by norm_num⟩

theorem isF32_two : IsF32 2 :=
  Or.inr ⟨2 ^ 23, -22, by norm_num, by norm_num, by norm_num⟩

theorem isF32_double (z : ℚ) (h : IsF32 z) : IsF32 (2 * z) := by
  rcases h with h0 | ⟨m, k, h1, h2, hz⟩
  · left
    rw [h0, mul_zero]
  · right
    refine ⟨m, k + 1, h1, h2, ?_⟩
    rw [hz, zpow_add₀ (by norm_num : (2 : ℚ) ≠ 0)]
    ring

theorem log_eq_of_binade (x : ℚ) (e : ℤ) (hlo : (2 : ℚ) ^ e ≤ |x|)
    (hhi : |x| < (2 : ℚ) ^ (e + 1)) : Int.log 2 |x| = e := by
  have hpos : 0 < |x| := lt_of_lt_of_le (zpow_pos (by norm_num) e) hlo
  have h1 : e ≤ Int.log 2 |x| := by
    rw [← Int.zpow_le_iff_le_log (by norm_num) hpos]
    simpa using hlo
  have h2 : Int.log 2 |x| < e + 1 := by
    rw [← Int.lt_zpow_iff_log_lt (by norm_num) hpos]
    simpa using hhi
  omega

theorem roundF32_eq (x : ℚ) (e k : ℤ) (hlo : (2 : ℚ) ^ e ≤ |x|)
    (hhi : |x| < (2 : ℚ) ^ (e + 1)) (hk : |(k : ℚ) - x / 2 ^ (e - 23)| < 1 / 2) :
    roundF32 x = (k : ℚ) * 2 ^ (e - 23) := by
  have hx : x ≠ 0 := by
    intro h0
    rw [h0, abs_zero] at hlo
    exact absurd hlo (not_le.2 (zpow_pos (by norm_num) e))
  unfold roundF32
  rw [if_neg hx, log_eq_of_binade x e hlo hhi, roundHalfEven_of_near _ k hk]

theorem isF32_three : IsF32 3 :=
  Or.inr ⟨12582912, -22, by norm_num, by norm_num, by norm_num⟩

theorem balanceF32_four_one : balanceF32 4 1 = -5592405 / 2 ^ 24 := by
  unfold balanceF32
  have h1 : roundF32 ((1 : ℕ) : ℚ) = 1 := by
    rw [Nat.cast_one]
    exact roundF32_of_isF32 1 isF32_one
  have h3 : roundF32 (((4 - 1 : ℕ)) : ℚ) = 3 := by
    norm_num
    exact roundF32_of_isF32 3 isF32_three
  have hq : roundF32 (2 / 3) = 11184811 / 2 ^ 24 := by
    rw [roundF32_eq (2 / 3) (-1) 11184811 (by norm_num [abs_of_pos]) (by norm_num [abs_of_pos])
      (by norm_num [abs_lt])]
    norm_num
  have hr : IsF32 (-5592405 / 2 ^ 24) :=
    Or.inr ⟨-11184810, -25, by norm_num, by norm_num, by norm_num⟩
  rw [h1, h3, mul_one, roundF32_of_isF32 2 isF32_two, hq]
  have : (11184811 : ℚ) / 2 ^ 24 - 1 = -5592405 / 2 ^ 24 := by norm_num
  rw [this]
  exact roundF32_of_isF32 _ hr

theorem balanceF32_four_two : balanceF32 4 2 = 2796203 / 2 ^ 23 := by
  unfold balanceF32
  have h2 : roundF32 ((2 : ℕ) : ℚ) = 2 := by
    rw [Nat.cast_ofNat]
    exact roundF32_of_isF32 2 isF32_two
  have h3 : roundF32 (((4 - 1 : ℕ)) : ℚ) = 3 := by
    norm_num
    exact roundF32_of_isF32 3 isF32_three
  have h4 : roundF32 (2 * 2) = 2 * 2 := roundF32_of_isF32 _ (isF32_double 2 isF32_two)
  have hq : roundF32 (2 * 2 / 3) = 11184811 / 2 ^ 23 := by
    rw [roundF32_eq (2 * 2 / 3) 0 11184811 (by norm_num [abs_of_pos]) (by norm_num [abs_of_pos])
      (by norm_num [abs_lt])]
    norm_num
  have hr : IsF32 (2796203 / 2 ^ 23) :=
    Or.inr ⟨11184812, -25, by norm_num, by norm_num, by norm_num⟩
  rw [h2, h3, h4, hq]
  have : (11184811 : ℚ) / 2 ^ 23 - 1 = 2796203 / 2 ^ 23 := by norm_num
  rw [this]
  exact roundF32_of_isF32 _ hr

/-- The two readings of line 158 evaluated for four channels: over the rationals the
coefficients of the streams 1 and 2 are `-1/3` and `1/3`; in binary32 they are
`-5592405/2^24` and `2796203/2^23`, whose sum is `2^-24`. -/
theorem balanceF32_demo :
    balanceAt 4 1 = Cplx.ofReal (-1 / 3) ∧ balanceAt 4 2 = Cplx.ofReal (1 / 3) ∧
      balanceAtF32 4 1 = Cplx.ofReal (-5592405 / 2 ^ 24) ∧
      balanceAtF32 4 2 = Cplx.ofReal (2796203 / 2 ^ 23) ∧
      balanceF32 4 1 + balanceF32 4 2 = 1 / 2 ^ 24 := by
  refine ⟨?_, ?_, ?_, ?_, ?_⟩
  · simp [balanceAt, Cplx.ofReal]
    norm_num
  · simp [balanceAt, Cplx.ofReal]
    norm_num
  · simp only [balanceAtF32, balanceF32_four_one]
    rfl
  · simp only [balanceAtF32, balanceF32_four_two]
    rfl
  · rw [balanceF32_four_one, balanceF32_four_two]
    norm_num

/-! ## Source assignment and the active flag -/

/-- C19: for every prior channel (whatever its flag and earlier source) and every source,
`setSource` returns a channel with `active()` true, whose `audioChannelsCount()` is the
channel count of the new source (read without a violation), and whose slot table and stored
sample rate are the prior ones; `setActive(b)` changes only the flag, and `active()` then
returns `b`. -/
theorem setSource_activates (w : World) (ch : MixerChannel) (source : Nat) (b : Bool) :
    (∃ ch1, setSource w ch source = some ch1 ∧
      ch1.active = true ∧
      ch1.m_source = some source ∧
      audioChannelsCount w ch1 = ⟨(w.sources source).audioChannelsCount, false⟩ ∧
      ch1.m_processorList = ch.m_processorList ∧
      ch1.m_sampleRate = ch.m_sampleRate) ∧
    (ch.setActive b).active = b ∧
    ch.setActive b = { ch with m_active := b } := by
  refine ⟨⟨_, setSource_eq w ch source, rfl, ?_, ?_, ?_, ?_⟩, rfl, rfl⟩
  · exact (updateLoop_fields _ { ch with m_source := some source }).1
  · have hs : ((updateLoop (w.sources source).audioChannelsCount
        { ch with m_source := some source }).setActive true).m_source = some source :=
      (updateLoop_fields _ { ch with m_source := some source }).1
    simp only [audioChannelsCount, hs]
  · exact (updateLoop_fields _ { ch with m_source := some source }).2.1
  · exact (updateLoop_fields _ { ch with m_source := some source }).2.2.2.1

/-- The retargeting evaluated: `demoState` (source 2) is deactivated and given the source
with one channel; the channel is active again, reports one channel, and keeps its slots and
rate. -/
theorem setSource_demo :
    ∃ ch1, setSource demoState.1 (demoState.2.setActive false) 1 = some ch1 ∧
      (demoState.2.setActive false).active = false ∧
      ch1.active = true ∧ (audioChannelsCount demoState.1 ch1).value = 1 ∧
      ch1.m_processorList.entries = [(1, 211), (2, 221), (3, 231)] ∧
      ch1.m_sampleRate = 44100 :=
  ⟨_, rfl, rfl, rfl, rfl, by decide, rfl⟩

/-! ## The two maps keep the same keys -/

theorem StdMap.keys_eq_of_mem_iff {α β : Type} (m₁ : StdMap α) (m₂ : StdMap β)
    (h : ∀ x, x ∈ m₁.keys ↔ x ∈ m₂.keys) : m₁.keys = m₂.keys := by
  have hs₁ : List.Sorted (fun a b : Nat => a < b) m₁.keys := m₁.ascending
  have hs₂ : List.Sorted (fun a b : Nat => a < b) m₂.keys := m₂.ascending
  have hn₁ : m₁.keys.Nodup := List.Pairwise.imp (fun hab => Nat.ne_of_lt hab) m₁.ascending
  have hn₂ : m₂.keys.Nodup := List.Pairwise.imp (fun hab => Nat.ne_of_lt hab) m₂.ascending
  have hp : List.Perm m₁.keys m₂.keys := (List.perm_ext_iff_of_nodup hn₁ hn₂).2 h
  exact List.eq_of_perm_of_sorted hp hs₁ hs₂

theorem updateLoop_keys_agree (n : Nat) (ch : MixerChannel)
    (hk : ch.m_level.keys = ch.m_balance.keys) :
    (updateLoop n ch).m_level.keys = (updateLoop n ch).m_balance.keys := by
  apply StdMap.keys_eq_of_mem_iff
  intro x
  unfold StdMap.keys at hk ⊢
  rw [updateLoop_level_entries, updateLoop_balance_entries,
    mem_keys_foldl_insertEntry (fun _ => (1 : ℚ)), mem_keys_foldl_insertEntry (balanceAt n), hk]

theorem setLevel_keys (ch : MixerChannel) (v : ℚ) :
    (ch.setLevel v).m_level.keys = ch.m_level.keys := by
  show (ch.m_level.entries.foldl (fun acc stream => acc.insert stream.1 v) ch.m_level).keys = _
  unfold StdMap.keys
  rw [foldl_insert_own_keys]
  simp [Function.comp_def]

theorem setBalance_keys (ch : MixerChannel) (b : Cplx) :
    (ch.setBalance b).m_balance.keys = ch.m_balance.keys := by
  show (ch.m_balance.entries.foldl (fun acc stream => acc.insert stream.1 b)
    ch.m_balance).keys = _
  unfold StdMap.keys
  rw [foldl_insert_own_keys]
  simp [Function.comp_def]

theorem keysAgree_step (st st1 : World × MixerChannel) (op : Op)
    (hop : op.isIndexedSetter = false) (hk : st.2.m_level.keys = st.2.m_balance.keys)
    (hstep : step st op = some st1) : st1.2.m_level.keys = st1.2.m_balance.keys := by
  obtain ⟨w, ch⟩ := st
  simp only at hk
  cases op with
  | setSource source =>
    simp only [step, setSource_eq, Option.map_some', Option.some.injEq] at hstep
    subst hstep
    exact updateLoop_keys_agree _ { ch with m_source := some source } hk
  | setLevel level =>
    simp only [step, Option.some.injEq] at hstep
    subst hstep
    show (ch.setLevel level).m_level.keys = ch.m_balance.keys
    rw [setLevel_keys, hk]
  | setLevelAt streamId level => simp [Op.isIndexedSetter] at hop
  | setBalance value =>
    simp only [step, Option.some.injEq] at hstep
    subst hstep
    show ch.m_level.keys = (ch.setBalance value).m_balance.keys
    rw [setBalance_keys, hk]
  | setBalanceAt streamId value => simp [Op.isIndexedSetter] at hop
  | setProcessor number proc =>
    simp only [step, Option.some.injEq] at hstep
    subst hstep
    obtain ⟨_, f2, f3, _⟩ := setProcessor_frame w ch number proc
    rw [f2, f3]
    exact hk
  | setSampleRate sampleRate =>
    simp only [step, Option.some.injEq] at hstep
    subst hstep
    rw [setSampleRate_channel]
    exact hk
  | setActive active =>
    simp only [step, Option.some.injEq] at hstep
    subst hstep
    exact hk
  | process buffer sampleCount =>
    simp only [step, Option.some.injEq] at hstep
    subst hstep
    exact hk
  | checkStreams =>
    simp only [step] at hstep
    unfold checkStreams updateBalanceLevelMaps at hstep
    split_ifs at hstep with hne
    · cases hsrc : ch.m_source with
      | none => simp [hsrc] at hstep
      | some source =>
        simp only [hsrc, Option.map_some', Option.some.injEq] at hstep
        subst hstep
        exact updateLoop_keys_agree _ ch hk
    · simp only [Option.map_some', Option.some.injEq] at hstep
      subst hstep
      exact hk
  | sourceChannelsChanged source count =>
    simp only [step, Option.some.injEq] at hstep
    subst hstep
    exact hk
  | channelsCountNotified =>
    simp only [step] at hstep
    cases hsrc : ch.m_source with
    | none =>
      simp only [hsrc, Option.some.injEq] at hstep
      subst hstep
      exact hk
    | some source =>
      simp only [hsrc, onAudioChannelsCountChanged, updateBalanceLevelMaps, Option.map_some',
        Option.some.injEq] at hstep
      subst hstep
      exact updateLoop_keys_agree _ ch hk

theorem keysAgree_run (ops : List Op) (st st1 : World × MixerChannel)
    (hops : ∀ op, op ∈ ops → op.isIndexedSetter = false)
    (hk : st.2.m_level.keys = st.2.m_balance.keys) (hrun : run st ops = some st1) :
    st1.2.m_level.keys = st1.2.m_balance.keys := by
  induction ops generalizing st with
  | nil =>
    simp only [run, Option.some.injEq] at hrun
    exact hrun ▸ hk
  | cons op rest ih =>
    unfold run at hrun
    cases hs : step st op with
    | none => simp [hs] at hrun
    | some st2 =>
      rw [hs] at hrun
      exact ih st2 (fun o ho => hops o (List.mem_cons_of_mem op ho))
        (keysAgree_step st st2 op (hops op (List.mem_cons_self op rest)) hk hs) hrun

theorem level_assertFailed_iff (ch : MixerChannel) (i : Nat) :
    (ch.level i).assertFailed = true ↔ i ∉ ch.m_level.keys := by
  rw [StdMap.keys, ← findEntry_eq_none_iff]
  unfold level StdMap.find
  cases findEntry i ch.m_level.entries <;> simp

theorem balance_assertFailed_iff (ch : MixerChannel) (i : Nat) :
    (ch.balance i).assertFailed = true ↔ i ∉ ch.m_balance.keys := by
  rw [StdMap.keys, ← findEntry_eq_none_iff]
  unfold balance StdMap.find
  cases findEntry i ch.m_balance.entries <;> simp

/-- C20: from a state in which the level map and the balance map have the same keys, every
operation other than the indexed setters (`setSource`, the reconciliation callback,
`checkStreams`, the broadcast setters, `setProcessor`, `setSampleRate`, `setActive`,
`process`, a channel-count change) that returns leaves them with the same keys; hence after
any sequence of such operations the keys still agree, and `level(i)` reports a missing
entry exactly when `balance(i)` does. A fresh channel is such a state. -/
theorem level_balance_keys_agree (st : World × MixerChannel)
    (hk : st.2.m_level.keys = st.2.m_balance.keys) :
    (∀ op st1, op.isIndexedSetter = false → step st op = some st1 →
      st1.2.m_level.keys = st1.2.m_balance.keys) ∧
    (∀ ops st1, (∀ op, op ∈ ops → op.isIndexedSetter = false) → run st ops = some st1 →
      st1.2.m_level.keys = st1.2.m_balance.keys ∧
      ∀ i, (st1.2.level i).assertFailed = (st1.2.balance i).assertFailed) ∧
    ∀ (a : Bool) (r : Nat), (fresh a r).m_level.keys = (fresh a r).m_balance.keys := by
  refine ⟨fun op st1 hop hstep => keysAgree_step st st1 op hop hk hstep, ?_, fun _ _ => rfl⟩
  intro ops st1 hops hrun
  have hkeys := keysAgree_run ops st st1 hops hk hrun
  refine ⟨hkeys, fun i => ?_⟩
  rw [Bool.eq_iff_iff, level_assertFailed_iff, balance_assertFailed_iff, hkeys]

/-- Witness of C20: a fresh channel, from which `demoPlainOps` can be run. -/
theorem level_balance_keys_agree_witness :
    (demoWorld, fresh false 0).2.m_level.keys = (demoWorld, fresh false 0).2.m_balance.keys ∧
      ((∀ op st1, op.isIndexedSetter = false → step (demoWorld, fresh false 0) op = some st1 →
        st1.2.m_level.keys = st1.2.m_balance.keys) ∧
      (∀ ops st1, (∀ op, op ∈ ops → op.isIndexedSetter = false) →
        run (demoWorld, fresh false 0) ops = some st1 →
        st1.2.m_level.keys = st1.2.m_balance.keys ∧
        ∀ i, (st1.2.level i).assertFailed = (st1.2.balance i).assertFailed) ∧
      ∀ (a : Bool) (r : Nat), (fresh a r).m_level.keys = (fresh a r).m_balance.keys) :=
  ⟨rfl, level_balance_keys_agree (demoWorld, fresh false 0) rfl⟩

/-- The agreement evaluated on `demoPlainOps`, which holds no indexed setter: the run
returns and both maps end with the keys 0, 1 and 2; one indexed `setBalance(5, 0)` more and
the keys differ. -/
theorem level_balance_keys_demo :
    (∀ op, op ∈ demoPlainOps → op.isIndexedSetter = false) ∧
      (∃ st1, run (demoWorld, fresh false 0) demoPlainOps = some st1 ∧
        st1.2.m_level.keys = [0, 1, 2] ∧ st1.2.m_balance.keys = [0, 1, 2]) ∧
      ∃ st2, run (demoWorld, fresh false 0) (demoPlainOps ++ [Op.setBalanceAt 5 (Cplx.ofReal 0)]) =
          some st2 ∧
        st2.2.m_level.keys = [0, 1, 2] ∧ st2.2.m_balance.keys = [0, 1, 2, 5] := by
  refine ⟨by decide, ⟨_, rfl, by decide, by decide⟩, ⟨_, rfl, by decide, by decide⟩⟩

end MixerChannel

end mu.audio
